import Mathlib

/-!
Verification development for the Edge Workspace link extractor
(`edge_workspace_links.py`).

The Python source is shallowly embedded: JSON values become the inductive
type `Json`, Python dicts become association lists with insertion-order
semantics, fallible attribute access (`.get` on a non-dict, which raises
`AttributeError` in Python) becomes `Except Unit`, and the byte level
(gzip recovery, UTF-8 decoding) is modelled over `List Nat` bytes.

Modelling notes, applying throughout:
* Python's `json` module accepts the non-standard constants
  `NaN`/`Infinity`/`-Infinity` inside documents; these are not modelled
  (no claim depends on them).
* JSON escape sequences producing lone UTF-16 surrogates (which Python
  keeps inside `str`) are modelled as U+FFFD, since Lean `Char` holds
  only scalar values.
* Non-integer JSON numbers are modelled exactly as decimal
  mantissa/exponent pairs rather than IEEE doubles.
* `str.isdigit` is modelled as "non-empty and all ASCII digits";
  non-ASCII Unicode digits are out of scope.
-/

set_option maxRecDepth 10000

namespace EdgeWs

/-- A JSON value as produced by Python's `json` module: `null`, booleans,
integers (`num`), non-integer numbers as decimal mantissa times ten to the
exponent (`fnum`), strings, arrays and objects.  Objects are association
lists in insertion order, mirroring Python `dict`. -/
inductive Json where
  | null : Json
  | bool (b : Bool) : Json
  | num (n : Int) : Json
  | fnum (m : Int) (e : Int) : Json
  | str (s : String) : Json
  | arr (xs : List Json) : Json
  | obj (kvs : List (String × Json)) : Json

/-- Python `dict` assignment `d[k] = v`: replace the value in place when the
key is present (keeping its position), otherwise append. -/
def dictInsert {α : Type} (kvs : List (String × α)) (k : String) (v : α) :
    List (String × α) :=
  match kvs with
  | [] => [(k, v)]
  | (k0, v0) :: rest =>
      if k0 = k then (k0, v) :: rest else (k0, v0) :: dictInsert rest k v

/-- Python `dict.get(k)` with no default: `none` when the key is absent. -/
def pyLookup {α : Type} (kvs : List (String × α)) (k : String) : Option α :=
  match kvs with
  | [] => none
  | (k0, v0) :: rest => if k0 = k then some v0 else pyLookup rest k

/-- The JSON whitespace characters accepted between tokens by Python's
strict JSON scanner: space, tab, newline, carriage return. -/
def isJsonWs (c : Char) : Bool :=
  c = ' ' || c = '\t' || c = '\n' || c = '\r'

/-- Skip JSON whitespace. -/
def skipWs (cs : List Char) : List Char := cs.dropWhile isJsonWs

def isDigitChar (c : Char) : Bool := '0' ≤ c && c ≤ '9'

/-- Value of one hexadecimal digit, case-insensitive. -/
def hexVal (c : Char) : Option Nat :=
  if '0' ≤ c ∧ c ≤ '9' then some (c.toNat - 48)
  else if 'a' ≤ c ∧ c ≤ 'f' then some (c.toNat - 87)
  else if 'A' ≤ c ∧ c ≤ 'F' then some (c.toNat - 55)
  else none

/-- Value of a four-digit hexadecimal escape `\uXXXX`. -/
def hex4 (a b c d : Char) : Option Nat :=
  match hexVal a, hexVal b, hexVal c, hexVal d with
  | some x, some y, some z, some w => some (((x * 16 + y) * 16 + z) * 16 + w)
  | _, _, _, _ => none

/-- Lookahead for the low half of a UTF-16 surrogate pair: a `\uXXXX`
escape with `XXXX` in `DC00`–`DFFF` at the head of the input. -/
def lowSurrogate (cs : List Char) : Option (Nat × List Char) :=
  match cs with
  | b1 :: b2 :: e :: f :: g :: h :: rest3 =>
      if b1 = '\\' ∧ b2 = 'u' then
        match hex4 e f g h with
        | some m =>
            if 0xDC00 ≤ m ∧ m ≤ 0xDFFF then some (m, rest3) else none
        | none => none
      else none
  | _ => none

/-- The eight single-character JSON escapes. -/
def escChar (c : Char) : Option Char :=
  if c = '"' then some '"'
  else if c = '\\' then some '\\'
  else if c = '/' then some '/'
  else if c = 'b' then some (Char.ofNat 8)
  else if c = 'f' then some (Char.ofNat 12)
  else if c = 'n' then some '\n'
  else if c = 'r' then some (Char.ofNat 13)
  else if c = 't' then some '\t'
  else none

/-- Body of a JSON string literal, after the opening quote.  Mirrors
Python's strict string scanner: unescaped control characters are rejected,
the eight single-character escapes and `\uXXXX` (with UTF-16 surrogate-pair
combination) are accepted.  A lone surrogate becomes U+FFFD (see module
notes).  Returns the string and the input remaining after the closing
quote.  The fuel argument only bounds recursion; every step consumes at
least one input character, so fuel `length + 1` never runs out. -/
def parseStringBody : Nat → List Char → List Char → Option (String × List Char)
  | 0, _, _ => none
  | _ + 1, _, [] => none
  | fl + 1, acc, c :: rest =>
      if c = '"' then some (String.mk acc, rest)
      else if c = '\\' then
        match rest with
        | [] => none
        | e :: rest1 =>
            if e = 'u' then
              match rest1 with
              | a :: b :: cc :: d :: rest2 =>
                  (match hex4 a b cc d with
                   | none => none
                   | some n =>
                       if 0xD800 ≤ n ∧ n ≤ 0xDBFF then
                         match lowSurrogate rest2 with
                         | some (m, rest3) =>
                             parseStringBody fl
                               (acc ++ [Char.ofNat
                                 (0x10000 + (n - 0xD800) * 0x400 + (m - 0xDC00))])
                               rest3
                         | none =>
                             parseStringBody fl (acc ++ [Char.ofNat 0xFFFD]) rest2
                       else if 0xDC00 ≤ n ∧ n ≤ 0xDFFF then
                         parseStringBody fl (acc ++ [Char.ofNat 0xFFFD]) rest2
                       else
                         parseStringBody fl (acc ++ [Char.ofNat n]) rest2)
              | _ => none
            else
              match escChar e with
              | some ch => parseStringBody fl (acc ++ [ch]) rest1
              | none => none
      else if c.toNat < 0x20 then none
      else parseStringBody fl (acc ++ [c]) rest

def digitsToNat (l : List Char) : Nat :=
  l.foldl (fun n c => n * 10 + (c.toNat - 48)) 0

/-- The optional fraction part `(\.\d+)?` of a JSON number: its digits
(empty when absent) and the remaining input. -/
def parseFrac (r1 : List Char) : List Char × List Char :=
  match r1 with
  | d0 :: t2 =>
      if d0 = '.' then
        let ds := t2.takeWhile isDigitChar
        if ds = [] then ([], r1) else (ds, t2.dropWhile isDigitChar)
      else ([], r1)
  | [] => ([], r1)

/-- The optional exponent part `([eE][+-]?\d+)?` of a JSON number: its
signed value (`none` when absent) and the remaining input. -/
def parseExp (r2 : List Char) : Option Int × List Char :=
  match r2 with
  | e :: t3 =>
      if e = 'e' ∨ e = 'E' then
        match t3 with
        | s0 :: u =>
            let negE := s0 = '-'
            let t4 := if s0 = '-' ∨ s0 = '+' then u else t3
            let ds := t4.takeWhile isDigitChar
            if ds = [] then (none, r2)
            else (some (if negE then -(digitsToNat ds : Int)
                        else (digitsToNat ds : Int)),
                  t4.dropWhile isDigitChar)
        | [] => (none, r2)
      else (none, r2)
  | [] => (none, r2)

/-- A JSON number starting at the head of the input, by maximal munch of
Python's `NUMBER_RE` (`-?(0|[1-9]\d*)(\.\d+)?([eE][+-]?\d+)?`): an integer
literal yields `Json.num`, a literal with a fraction or exponent yields
`Json.fnum` with exact decimal mantissa and exponent. -/
def parseNumber (cs : List Char) : Option (Json × List Char) :=
  match cs with
  | [] => none
  | c0 :: t0 =>
      let signNeg := c0 = '-'
      let cs1 := if signNeg then t0 else cs
      match cs1 with
      | [] => none
      | c :: t =>
          if ¬ isDigitChar c then none
          else
            let intPart := if c = '0' then ['0'] else cs1.takeWhile isDigitChar
            let r1 := if c = '0' then t else cs1.dropWhile isDigitChar
            let fr := parseFrac r1
            let ex := parseExp fr.2
            let signI : Int := if signNeg then -1 else 1
            if fr.1 = [] ∧ ex.1 = none then
              some (Json.num (signI * (digitsToNat intPart : Int)), r1)
            else
              some (Json.fnum (signI * (digitsToNat (intPart ++ fr.1) : Int))
                      ((ex.1.getD 0) - (fr.1.length : Int)),
                    ex.2)

mutual

/-- One strict JSON value anchored at the head of the input (no leading
whitespace skip), as Python's `JSONDecoder.raw_decode` parses it.  Returns
the value and the remaining input.  The fuel argument bounds the total
number of recursive steps; every recursive call is preceded by at least one
consumed character, so fuel `length + 1` never runs out. -/
def parseValue : Nat → List Char → Option (Json × List Char)
  | 0, _ => none
  | f + 1, cs =>
      match cs with
      | [] => none
      | c :: rest =>
          if c = '{' then
            match skipWs rest with
            | x :: r2 =>
                if x = '}' then some (Json.obj [], r2)
                else parseObjMembers f (x :: r2) []
            | [] => none
          else if c = '[' then
            match skipWs rest with
            | x :: r2 =>
                if x = ']' then some (Json.arr [], r2)
                else parseArrElems f (x :: r2) []
            | [] => none
          else if c = '"' then
            match parseStringBody f [] rest with
            | some (s, r) => some (Json.str s, r)
            | none => none
          else if c = 't' then
            if rest.take 3 = ['r', 'u', 'e'] then
              some (Json.bool true, rest.drop 3)
            else none
          else if c = 'f' then
            if rest.take 4 = ['a', 'l', 's', 'e'] then
              some (Json.bool false, rest.drop 4)
            else none
          else if c = 'n' then
            if rest.take 3 = ['u', 'l', 'l'] then
              some (Json.null, rest.drop 3)
            else none
          else parseNumber (c :: rest)

/-- Members of a JSON object, positioned at a key (whitespace already
skipped), with the members parsed so far accumulated with Python `dict`
insertion semantics. -/
def parseObjMembers : Nat → List Char → List (String × Json) →
    Option (Json × List Char)
  | 0, _, _ => none
  | f + 1, cs, acc =>
      match cs with
      | [] => none
      | c :: rest =>
          if c = '"' then
            match parseStringBody f [] rest with
            | none => none
            | some (k, r1) =>
                match skipWs r1 with
                | c2 :: r3 =>
                    if c2 = ':' then
                      match parseValue f (skipWs r3) with
                      | none => none
                      | some (v, r4) =>
                          let acc2 := dictInsert acc k v
                          match skipWs r4 with
                          | c3 :: r6 =>
                              if c3 = ',' then parseObjMembers f (skipWs r6) acc2
                              else if c3 = '}' then some (Json.obj acc2, r6)
                              else none
                          | [] => none
                    else none
                | [] => none
          else none

/-- Elements of a JSON array, positioned at an element (whitespace already
skipped), with the elements parsed so far accumulated in order. -/
def parseArrElems : Nat → List Char → List Json → Option (Json × List Char)
  | 0, _, _ => none
  | f + 1, cs, acc =>
      match parseValue f cs with
      | none => none
      | some (v, r1) =>
          match skipWs r1 with
          | c2 :: r3 =>
              if c2 = ',' then parseArrElems f (skipWs r3) (acc ++ [v])
              else if c2 = ']' then some (Json.arr (acc ++ [v]), r3)
              else none
          | [] => none

end

/-- Python `decoder.raw_decode(text, idx)`: parse one strict JSON value
anchored at position `idx`; on success return the value and the index just
past it. -/
def rawDecode (cs : List Char) (idx : Nat) : Option (Json × Nat) :=
  match parseValue (cs.length + 1) (cs.drop idx) with
  | some (v, rest) => some (v, cs.length - rest.length)
  | none => none

/-- The scanning loop of `iter_json_objects`: at each position, skip unless
the character is `{` or `[`; there attempt a `raw_decode`; on success yield
the value and move the cursor just past it, on failure advance by one
character.  The fuel argument bounds the number of loop iterations; since
every iteration advances the cursor, fuel `length` reaches the end. -/
def iterJsonAux : Nat → List Char → Nat → List Json
  | 0, _, _ => []
  | f + 1, cs, idx =>
      if idx < cs.length then
        if cs.getD idx ' ' = '{' ∨ cs.getD idx ' ' = '[' then
          match rawDecode cs idx with
          | some (v, e) => v :: iterJsonAux f cs e
          | none => iterJsonAux f cs (idx + 1)
        else iterJsonAux f cs (idx + 1)
      else []

/-- `iter_json_objects(text)`: every top-level JSON value found in the
text, left to right. -/
def iter_json_objects (s : String) : List Json :=
  iterJsonAux s.data.length s.data 0

mutual

/-- Size of a JSON value; dominates the recursion depth of the content
walk (string sizes dominate the size of JSON re-encoded inside them, by
`parseValue_size`). -/
def jsize : Json → Nat
  | .null => 1
  | .bool _ => 1
  | .num _ => 1
  | .fnum _ _ => 1
  | .str s => s.length + 1
  | .arr xs => 1 + jsizeList xs
  | .obj kvs => 1 + jsizePairs kvs

def jsizeList : List Json → Nat
  | [] => 0
  | x :: xs => 1 + jsize x + jsizeList xs

def jsizePairs : List (String × Json) → Nat
  | [] => 0
  | (_, v) :: rest => 1 + jsize v + jsizePairs rest

end

/-- `json.loads(s)`: skip leading whitespace, parse one strict JSON value,
skip trailing whitespace, and require that the whole input was consumed. -/
def pyLoads (s : String) : Option Json :=
  match parseValue (s.data.length + 1) (skipWs s.data) with
  | some (v, rest) => if skipWs rest = [] then some v else none
  | none => none

/-- Python `str` whitespace as stripped by `str.strip()` (ASCII part:
space, tab, newline, vertical tab, form feed, carriage return; non-ASCII
Unicode whitespace is out of scope of the model). -/
def isPyWs (c : Char) : Bool :=
  c = ' ' || c = '\t' || c = '\n' || c = '\r' || c.toNat = 11 || c.toNat = 12

/-- `s.strip()`. -/
def pyStrip (s : String) : String :=
  String.mk (((s.data.dropWhile isPyWs).reverse.dropWhile isPyWs).reverse)

/-- Lines 87–94 of the source: a string is a candidate for double-encoded
JSON when its stripped form starts with `{` or `[`; the candidate is then
parsed with `json.loads`, failures yielding nothing. -/
def strCandidate (s : String) : Option Json :=
  let candidate := pyStrip s
  match candidate.data with
  | c :: _ => if c = '{' ∨ c = '[' then pyLoads candidate else none
  | [] => none

mutual

/-- The recursion of `iter_content_objects`: a mapping yields its
`content` value when that is itself a mapping, then every value of the
mapping is walked (including the `content` value); sequences walk their
elements; a string that looks like re-encoded JSON is parsed and walked.
The fuel argument only bounds recursion depth; `jsize` of the root always
suffices (`iterContent_fuel`). -/
def iterContentAux : Nat → Json → List Json
  | 0, _ => []
  | fl + 1, Json.obj kvs =>
      (match pyLookup kvs "content" with
       | some (Json.obj c) => [Json.obj c]
       | _ => []) ++ iterContentPairs fl kvs
  | fl + 1, Json.arr xs => iterContentList fl xs
  | fl + 1, Json.str s =>
      (match strCandidate s with
       | some v => iterContentAux fl v
       | none => [])
  | _ + 1, _ => []

def iterContentList : Nat → List Json → List Json
  | 0, _ => []
  | _ + 1, [] => []
  | fl + 1, x :: xs => iterContentAux fl x ++ iterContentList fl xs

def iterContentPairs : Nat → List (String × Json) → List Json
  | 0, _ => []
  | _ + 1, [] => []
  | fl + 1, (_, v) :: rest => iterContentAux fl v ++ iterContentPairs fl rest

end

/-- `iter_content_objects(obj)`: every content node reachable from the
value, in document order. -/
def iter_content_objects (j : Json) : List Json :=
  iterContentAux (jsize j) j

/-- `typed_value(value)`: unwrap the `{"value": ...}` boxing convention
when the value is a mapping containing the key `value`. -/
def typed_value (v : Json) : Json :=
  match v with
  | Json.obj kvs =>
      (match pyLookup kvs "value" with
       | some w => w
       | none => Json.obj kvs)
  | _ => v

/-- Python truthiness of a JSON value (`if not entry: ...`). -/
def pyFalsy : Json → Bool
  | .null => true
  | .bool b => !b
  | .num n => n == 0
  | .fnum m _ => m == 0
  | .str s => s == ""
  | .arr xs => xs.isEmpty
  | .obj kvs => kvs.isEmpty

mutual

/-- Python `str()` of a JSON value.  Exact for `None`, booleans, integers
and strings — the cases the source's comparisons depend on.  Non-integer
numbers and containers get an approximate rendering (kept distinct from
any integer rendering, as in Python); exact float and container `repr` is
beyond the model and no claim depends on it. -/
def pyStr : Json → String
  | .null => "None"
  | .bool true => "True"
  | .bool false => "False"
  | .num n => toString n
  | .fnum m e => toString m ++ "e" ++ toString e
  | .str s => s
  | .arr xs => "[" ++ pyReprList xs ++ "]"
  | .obj kvs => "\x7b" ++ pyReprPairs kvs ++ "\x7d"

def pyReprList : List Json → String
  | [] => ""
  | [x] => pyStr x
  | x :: xs => pyStr x ++ ", " ++ pyReprList xs

def pyReprPairs : List (String × Json) → String
  | [] => ""
  | [(k, v)] => "'" ++ k ++ "': " ++ pyStr v
  | (k, v) :: rest => "'" ++ k ++ "': " ++ pyStr v ++ ", " ++ pyReprPairs rest

end

/-- Python `x.get(k, default)` on a value that may not be a mapping: on a
mapping, the value at `k` or the default; on anything else Python raises
`AttributeError`, modelled as `Except.error`. -/
def pyGetD (v : Json) (k : String) (d : Json) : Except Unit Json :=
  match v with
  | Json.obj kvs => .ok ((pyLookup kvs k).getD d)
  | _ => .error ()

/-- Python `x.get(k)` with default `None` (absent keys and JSON `null`
values coincide as Python `None`, modelled as `Json.null`). -/
def pyGet (v : Json) (k : String) : Except Unit Json :=
  match v with
  | Json.obj kvs => .ok ((pyLookup kvs k).getD Json.null)
  | _ => .error ()

/-- A `{url, title}` record produced by the extractors. -/
structure LinkRecord where
  url : String
  title : String
  deriving DecidableEq, Repr

/-- Python `str.isdigit` restricted to ASCII (see module notes). -/
def pyIsDigit (s : String) : Bool :=
  !s.isEmpty && s.data.all isDigitChar

/-- Python `max` on a non-empty list of integers (`0` on `[]`, a case the
source never reaches because it tests emptiness first). -/
def maxI : List Int → Int
  | [] => 0
  | x :: xs => xs.foldl max x

/-- Lines 129–135 of the source: the navigation-stack entry used for a
tab.  Look up the string form of the current index; when that is missing
or falsy, fall back to the entry at the string form of the largest numeric
key (when any key is all digits).  `Json.null` stands for Python `None`
on a missed lookup. -/
def selectNavEntry (nav_stack : List (String × Json)) (current_key : String) :
    Json :=
  let entry := (pyLookup nav_stack current_key).getD Json.null
  if pyFalsy entry then
    let numeric_keys : List Int :=
      ((nav_stack.map Prod.fst).filter pyIsDigit).map
        (fun k => (digitsToNat k.data : Int))
    if numeric_keys.isEmpty then entry
    else (pyLookup nav_stack (toString (maxI numeric_keys))).getD Json.null
  else entry

/-- The URL priority chain of lines 138–143: the first value in the list
that is a non-empty string, else `""`. -/
def firstUrlStr : List Json → String
  | [] => ""
  | Json.str s :: rest => if s = "" then firstUrlStr rest else s
  | _ :: rest => firstUrlStr rest

/-- The body of the `for tab_data in webcontents.values()` loop of
`extract_tabs_from_content` (lines 115–148): `none` when the tab is
skipped, one record otherwise, `Except.error` when Python would raise
`AttributeError` (`.get` on a non-mapping). -/
def extractTab (tab_data : Json) : Except Unit (Option LinkRecord) := do
  match tab_data with
  | Json.obj _ =>
      let storage ← pyGetD tab_data "storage" (Json.obj [])
      let rawIdx ← pyGet storage "currentNavigationIndex"
      match typed_value rawIdx with
      | Json.null => return none
      | current_index =>
          let s1 ← pyGetD tab_data "subdirectories" (Json.obj [])
          let s2 ← pyGetD s1 "navigationStack" (Json.obj [])
          let navJ ← pyGetD s2 "subdirectories" (Json.obj [])
          match navJ with
          | Json.obj nav_stack =>
              if nav_stack.isEmpty then return none
              else
                let entry := selectNavEntry nav_stack (pyStr current_index)
                if pyFalsy entry then return none
                else
                  let entry_storage ← pyGetD entry "storage" (Json.obj [])
                  let u1 ← pyGet entry_storage "virtualUrl"
                  let u2 ← pyGet entry_storage "originalRequestUrl"
                  let u3 ← pyGet entry_storage "url"
                  let url := firstUrlStr
                    [typed_value u1, typed_value u2, typed_value u3]
                  if url = "" then return none
                  else
                    let tv ← pyGet entry_storage "title"
                    let title := match typed_value tv with
                      | Json.str t => t
                      | _ => ""
                    return some ⟨url, title⟩
          | _ => return none
  | _ => return none

/-- `extract_tabs_from_content(content)` (lines 103–150), over a content
node (a mapping, as every caller guarantees).  `Except.error` models the
`AttributeError` Python raises when an intermediate value of the navigated
path is present but not a mapping. -/
def extract_tabs_from_content (content : List (String × Json)) :
    Except Unit (List LinkRecord) := do
  let s1 := (pyLookup content "subdirectories").getD (Json.obj [])
  let s2 ← pyGetD s1 "tabstripmodel" (Json.obj [])
  let s3 ← pyGetD s2 "subdirectories" (Json.obj [])
  let s4 ← pyGetD s3 "webcontents" (Json.obj [])
  let wcJ ← pyGetD s4 "subdirectories" (Json.obj [])
  match wcJ with
  | Json.obj webcontents =>
      webcontents.foldlM
        (fun acc kv => do
          match ← extractTab kv.2 with
          | some r => pure (acc ++ [r])
          | none => pure acc)
        []
  | _ => return []

/-- The body of the `for entry in storage.values()` loop of
`extract_favorites_from_content` (lines 162–171). -/
def extractFavorite (entry : Json) : Option LinkRecord :=
  match typed_value entry with
  | Json.obj nodeKvs =>
      let node_type := (pyLookup nodeKvs "nodeType").getD Json.null
      let url := (pyLookup nodeKvs "url").getD Json.null
      if pyStr node_type ≠ "1" then none
      else
        match url with
        | Json.str u =>
            if u = "" then none
            else
              let title := match (pyLookup nodeKvs "title").getD Json.null with
                | Json.str t => t
                | _ => ""
              some ⟨u, title⟩
        | _ => none
  | _ => none

/-- `extract_favorites_from_content(content)` (lines 153–173), over a
content node.  `Except.error` models the `AttributeError` Python raises
when `content["subdirectories"]` is present but not a mapping. -/
def extract_favorites_from_content (content : List (String × Json)) :
    Except Unit (List LinkRecord) := do
  let s1 := (pyLookup content "subdirectories").getD (Json.obj [])
  let favJ ← pyGetD s1 "favorites" (Json.obj [])
  match favJ with
  | Json.obj favorites =>
      match (pyLookup favorites "storage").getD (Json.obj []) with
      | Json.obj storage =>
          return storage.foldl
            (fun acc kv =>
              match extractFavorite kv.2 with
              | some r => acc ++ [r]
              | none => acc)
            []
      | _ => return []
  | _ => return []

/-! ### Byte level: UTF-8 decoding and gzip stream recovery -/

/-- A UTF-8 continuation byte. -/
def isCont (c : Nat) : Bool := 0x80 ≤ c && c ≤ 0xBF

/-- Valid range of the first continuation byte of a three-byte sequence
(restricted for `E0` and `ED` to exclude overlong forms and surrogates). -/
def cont3Ok (b c : Nat) : Bool :=
  if b = 0xE0 then 0xA0 ≤ c && c ≤ 0xBF
  else if b = 0xED then 0x80 ≤ c && c ≤ 0x9F
  else isCont c

/-- Valid range of the first continuation byte of a four-byte sequence
(restricted for `F0` and `F4` to exclude overlong forms and code points
above U+10FFFF). -/
def cont4Ok (b c : Nat) : Bool :=
  if b = 0xF0 then 0x90 ≤ c && c ≤ 0xBF
  else if b = 0xF4 then 0x80 ≤ c && c ≤ 0x8F
  else isCont c

/-- UTF-8 decoding with `errors="ignore"`, as Python's decoder behaves: a
valid sequence yields its code point; on an invalid sequence, the maximal
subpart (the leading byte together with the valid continuation bytes seen
before the error) is dropped and decoding resumes.  The fuel argument only
bounds recursion; every step consumes at least one byte. -/
def utf8Go : Nat → List Nat → List Char
  | 0, _ => []
  | _ + 1, [] => []
  | fl + 1, b :: rest =>
      if b < 0x80 then Char.ofNat b :: utf8Go fl rest
      else if 0xC2 ≤ b ∧ b ≤ 0xDF then
        match rest with
        | c1 :: rest2 =>
            if isCont c1 then
              Char.ofNat ((b - 0xC0) * 64 + (c1 - 0x80)) :: utf8Go fl rest2
            else utf8Go fl (c1 :: rest2)
        | [] => []
      else if 0xE0 ≤ b ∧ b ≤ 0xEF then
        match rest with
        | c1 :: rest2 =>
            if cont3Ok b c1 then
              match rest2 with
              | c2 :: rest3 =>
                  if isCont c2 then
                    Char.ofNat (((b - 0xE0) * 64 + (c1 - 0x80)) * 64 + (c2 - 0x80))
                      :: utf8Go fl rest3
                  else utf8Go fl (c2 :: rest3)
              | [] => []
            else utf8Go fl (c1 :: rest2)
        | [] => []
      else if 0xF0 ≤ b ∧ b ≤ 0xF4 then
        match rest with
        | c1 :: rest2 =>
            if cont4Ok b c1 then
              match rest2 with
              | c2 :: rest3 =>
                  if isCont c2 then
                    match rest3 with
                    | c3 :: rest4 =>
                        if isCont c3 then
                          Char.ofNat ((((b - 0xF0) * 64 + (c1 - 0x80)) * 64
                            + (c2 - 0x80)) * 64 + (c3 - 0x80))
                            :: utf8Go fl rest4
                        else utf8Go fl (c3 :: rest4)
                    | [] => []
                  else utf8Go fl (c2 :: rest3)
              | [] => []
            else utf8Go fl (c1 :: rest2)
        | [] => []
      else utf8Go fl rest

/-- UTF-8 decoding with `errors="ignore"` over a whole byte list.  Fuel
`length + 1` always suffices: every step of `utf8Go` consumes at least one
byte. -/
def utf8DecodeIgnore (bs : List Nat) : List Char :=
  utf8Go (bs.length + 1) bs

/-- Line 177 of the source: `b"\n".join(payloads).decode("utf-8",
errors="ignore")`. -/
def decodePayloads (payloads : List (List Nat)) : String :=
  String.mk (utf8DecodeIgnore (List.intercalate [10] payloads))

/-- Line 178 of the source: every character below `0x20` becomes a space. -/
def cleanControl (s : String) : String :=
  String.mk (s.data.map (fun ch => if ch.toNat < 0x20 then ' ' else ch))

/-- CRC-32 (the gzip polynomial), bitwise. -/
def crc32 (data : List Nat) : Nat :=
  let step1 : Nat → Nat := fun crc =>
    if crc % 2 = 1 then (crc / 2) ^^^ 0xEDB88320 else crc / 2
  let stepByte : Nat → Nat → Nat := fun crc b =>
    step1 (step1 (step1 (step1 (step1 (step1 (step1 (step1 (crc ^^^ b))))))))
  (data.foldl stepByte 0xFFFFFFFF) ^^^ 0xFFFFFFFF

/-- Two bytes, little endian. -/
def le2 (n : Nat) : List Nat := [n % 256, (n / 256) % 256]

/-- Four bytes, little endian. -/
def le4 (n : Nat) : List Nat :=
  [n % 256, (n / 256) % 256, (n / 65536) % 256, (n / 16777216) % 256]

/-- DEFLATE decompression restricted to stored (uncompressed) blocks:
block header byte with `BFINAL`/`BTYPE` in the low bits, `LEN`, `NLEN`
(ones' complement check), then `LEN` literal bytes.  Compressed block
types are beyond the model and treated as invalid.  Returns the output
and the bytes following the final block.  The fuel argument only bounds
the number of blocks; each block consumes at least five bytes. -/
def inflateStored : Nat → List Nat → List Nat → Option (List Nat × List Nat)
  | 0, _, _ => none
  | _ + 1, [], _ => none
  | fl + 1, hdr :: rest, acc =>
      if (hdr / 2) % 4 ≠ 0 then none
      else
        match rest with
        | l1 :: l2 :: n1 :: n2 :: rest2 =>
            let len := l1 + 256 * l2
            if (l1 + 256 * l2) + (n1 + 256 * n2) ≠ 0xFFFF then none
            else if rest2.length < len then none
            else if hdr % 2 = 1 then some (acc ++ rest2.take len, rest2.drop len)
            else inflateStored fl (rest2.drop len) (acc ++ rest2.take len)
        | _ => none

/-- `zlib.decompressobj(16 + zlib.MAX_WBITS).decompress(data)` reaching a
clean end of stream: a gzip member at the head of the input — magic bytes,
`CM = 8`, DEFLATE body, then a CRC-32 and length trailer, both verified —
decompressed, trailing bytes ignored (zlib's `unused_data`).  Modelling
restrictions: optional header fields (`FLG ≠ 0`) and compressed DEFLATE
block types are treated as invalid; a truncated stream (no clean end, so
`decompressor.eof` stays false and the caller skips it) is folded into
`none`. -/
def gunzip (data : List Nat) : Option (List Nat) :=
  match data with
  | b1 :: b2 :: cm :: flg :: _ :: _ :: _ :: _ :: _ :: _ :: rest =>
      if b1 ≠ 0x1F ∨ b2 ≠ 0x8B then none
      else if cm ≠ 8 then none
      else if flg ≠ 0 then none
      else
        match inflateStored (rest.length + 1) rest [] with
        | some (out, rest2) =>
            (match rest2.take 8 with
             | [c1, c2, c3, c4, i1, i2, i3, i4] =>
                 if c1 + 256 * c2 + 65536 * c3 + 16777216 * c4 = crc32 out ∧
                    i1 + 256 * i2 + 65536 * i3 + 16777216 * i4 =
                      out.length % 4294967296
                 then some out else none
             | _ => none)
        | none => none
  | _ => none

/-- A gzip stream with one stored DEFLATE block: minimal header (no
optional fields), the payload as literal bytes, CRC-32 and length trailer.
Valid for payloads of at most `0xFFFF` bytes. -/
def mkGzipStored (payload : List Nat) : List Nat :=
  [0x1F, 0x8B, 8, 0, 0, 0, 0, 0, 0, 0xFF]
    ++ [1] ++ le2 payload.length ++ le2 (0xFFFF - payload.length)
    ++ payload ++ le4 (crc32 payload) ++ le4 (payload.length % 4294967296)

/-- `iter_gzip_offsets(data)`: `data.find(b"\x1f\x8b", start)` iterated
with `start = idx + 1` enumerates every position where the two magic bytes
occur, overlaps included, in increasing order; modelled directly as that
list of positions. -/
def iter_gzip_offsets (data : List Nat) : List Nat :=
  (List.range data.length).filter
    (fun i => (data.drop i).take 2 == [0x1F, 0x8B])

/-- The body of the offset loop of `decompress_payloads` (lines 45–57),
with the decompressor as a parameter `D`: decompress the byte suffix at
one magic offset; keep a non-empty output whose digest is new.  `D`
returning `none` covers both `zlib.error` and a stream with no clean end
of stream (`decompressor.eof` false); the state is the `(payloads, seen)`
pair.  The SHA-256 digest of an output is modelled as the output itself
(SHA-256 is collision-free for every input the program can reach). -/
def payloadStep (D : List Nat → Option (List Nat)) (data : List Nat)
    (st : List (List Nat) × List (List Nat)) (idx : Nat) :
    List (List Nat) × List (List Nat) :=
  match D (data.drop idx) with
  | some out =>
      if out.isEmpty then st
      else if st.2.contains out then st
      else (st.1 ++ [out], st.2 ++ [out])
  | none => st

/-- The loop of `decompress_payloads`, folding `payloadStep` over the
magic offsets; the recovered payloads are the first component. -/
def decompressPayloadsWith (D : List Nat → Option (List Nat))
    (data : List Nat) : List (List Nat) :=
  ((iter_gzip_offsets data).foldl (payloadStep D data)
    (([], []) : List (List Nat) × List (List Nat))).1

/-- `decompress_payloads(data)` with the gzip decompressor. -/
def decompress_payloads (data : List Nat) : List (List Nat) :=
  decompressPayloadsWith gunzip data

/-- `N` copies of a byte stream, concatenated. -/
def concatN : Nat → List Nat → List Nat
  | 0, _ => []
  | n + 1, s => s ++ concatN n s

/-! ### Aggregation (lines 356–397 of the source) -/

/-- The loop body of `unique_by_url` (lines 358–366): a record with an
empty or missing URL is skipped; a record for a present URL overwrites the
stored title only when the stored title is empty and the new one is not.
(The source's guards for non-string URLs/titles are vacuous here: records
are typed.) -/
def uniqueStep (m : List (String × String)) (link : LinkRecord) :
    List (String × String) :=
  if link.url = "" then m
  else
    match pyLookup m link.url with
    | none => dictInsert m link.url link.title
    | some t =>
        if t = "" ∧ link.title ≠ "" then dictInsert m link.url link.title
        else m

/-- `unique_by_url(links)` (lines 356–367): URL-to-title map in insertion
order, folding `uniqueStep` over the records. -/
def unique_by_url (links : List LinkRecord) : List (String × String) :=
  links.foldl uniqueStep []

/-- Lines 373–374 of the source: a favorite URL is always written into the
combined map. -/
def favStep (c : List (String × (String × String))) (kv : String × String) :
    List (String × (String × String)) :=
  dictInsert c kv.1 ("favorite", kv.2)

/-- Lines 375–378 of the source: a tab URL is written into the combined
map only when not already present. -/
def tabStep (c : List (String × (String × String))) (kv : String × String) :
    List (String × (String × String)) :=
  if (pyLookup c kv.1).isSome then c
  else dictInsert c kv.1 ("tab", kv.2)

/-- Lines 372–378 of the source: merge the two URL maps; every favorite
URL gets a `favorite` record, then every tab URL not already present gets
a `tab` record. -/
def combineUrls (favorite_urls tab_urls : List (String × String)) :
    List (String × (String × String)) :=
  tab_urls.foldl tabStep (favorite_urls.foldl favStep [])

/-- One file's final classified records (lines 356–397): deduplicate each
source list by URL, then merge with favorites taking priority.  Each entry
is `(url, (source, title))`. -/
def fileRecords (favorites tabs : List LinkRecord) :
    List (String × (String × String)) :=
  combineUrls (unique_by_url favorites) (unique_by_url tabs)

/-! ### Dictionary lemmas -/

theorem pyLookup_dictInsert_self {α : Type} (m : List (String × α))
    (k : String) (v : α) : pyLookup (dictInsert m k v) k = some v := by
  induction m with
  | nil => simp [dictInsert, pyLookup]
  | cons kv rest ih =>
      obtain ⟨k0, v0⟩ := kv
      by_cases hk : k0 = k
      · simp [dictInsert, hk, pyLookup]
      · simp [dictInsert, hk, pyLookup, ih]

theorem pyLookup_dictInsert_other {α : Type} (m : List (String × α))
    (k k' : String) (v : α) (hne : k' ≠ k) :
    pyLookup (dictInsert m k v) k' = pyLookup m k' := by
  have hne2 : ¬ (k = k') := fun h => hne h.symm
  induction m with
  | nil => simp [dictInsert, pyLookup, hne2]
  | cons kv rest ih =>
      obtain ⟨k0, v0⟩ := kv
      by_cases hk : k0 = k
      · subst hk
        simp [dictInsert, pyLookup, hne2]
      · simp [dictInsert, hk, pyLookup, ih]

theorem pyLookup_none_not_mem {α : Type} (m : List (String × α))
    (k : String) (h : pyLookup m k = none) : k ∉ m.map Prod.fst := by
  induction m with
  | nil => simp
  | cons kv rest ih =>
      obtain ⟨k0, v0⟩ := kv
      by_cases hk : k0 = k
      · simp [pyLookup, hk] at h
      · simp only [pyLookup, if_neg hk] at h
        simp only [List.map_cons, List.mem_cons]
        rintro (h1 | h2)
        · exact hk h1.symm
        · exact ih h h2

theorem pyLookup_append {α : Type} (a b : List (String × α)) (k : String) :
    pyLookup (a ++ b) k =
      match pyLookup a k with
      | some v => some v
      | none => pyLookup b k := by
  induction a with
  | nil => simp [pyLookup]
  | cons kv rest ih =>
      obtain ⟨k0, v0⟩ := kv
      by_cases hk : k0 = k <;> simp [pyLookup, hk, ih]

theorem dictInsert_of_lookup_none {α : Type} (m : List (String × α))
    (k : String) (v : α) (h : pyLookup m k = none) :
    dictInsert m k v = m ++ [(k, v)] := by
  induction m with
  | nil => simp [dictInsert]
  | cons kv rest ih =>
      obtain ⟨k0, v0⟩ := kv
      by_cases hk : k0 = k
      · simp [pyLookup, hk] at h
      · simp only [pyLookup, if_neg hk] at h
        simp [dictInsert, hk, ih h]

theorem keys_dictInsert {α : Type} (m : List (String × α)) (k : String)
    (v : α) :
    (dictInsert m k v).map Prod.fst =
      if (pyLookup m k).isSome then m.map Prod.fst
      else m.map Prod.fst ++ [k] := by
  induction m with
  | nil => simp [dictInsert, pyLookup]
  | cons kv rest ih =>
      obtain ⟨k0, v0⟩ := kv
      by_cases hk : k0 = k
      · simp [dictInsert, pyLookup, hk]
      · simp only [dictInsert, if_neg hk, pyLookup, List.map_cons, ih]
        split <;> simp

theorem keys_nodup_dictInsert {α : Type} (m : List (String × α)) (k : String)
    (v : α) (h : (m.map Prod.fst).Nodup) :
    ((dictInsert m k v).map Prod.fst).Nodup := by
  rw [keys_dictInsert]
  split
  · exact h
  case isFalse hnone =>
    have hk : k ∉ m.map Prod.fst := by
      apply pyLookup_none_not_mem
      cases hcl : pyLookup m k
      · rfl
      · simp [hcl] at hnone
    simp [List.nodup_append, h, hk]


/-! ### Parser size and consumption lemmas -/

theorem jsize_pos : ∀ v : Json, 1 ≤ jsize v := by
  intro v
  cases v <;> simp [jsize]

theorem skipWs_length (cs : List Char) : (skipWs cs).length ≤ cs.length := by
  unfold skipWs
  induction cs with
  | nil => simp [List.dropWhile]
  | cons x xs ih =>
      simp only [List.dropWhile]
      split
      · exact le_trans ih (by simp)
      · simp

theorem jsizeList_append (a b : List Json) :
    jsizeList (a ++ b) = jsizeList a + jsizeList b := by
  induction a with
  | nil => simp [jsizeList]
  | cons x xs ih =>
      simp only [List.cons_append, jsizeList, List.append_eq, ih]
      omega

theorem jsizePairs_dictInsert (acc : List (String × Json)) (k : String)
    (v : Json) :
    jsizePairs (dictInsert acc k v) ≤ jsizePairs acc + 1 + jsize v := by
  induction acc with
  | nil =>
      simp only [dictInsert, jsizePairs]
      omega
  | cons kv rest ih =>
      obtain ⟨k0, v0⟩ := kv
      by_cases hk : k0 = k
      · simp only [dictInsert, if_pos hk, jsizePairs]
        have := jsize_pos v0
        omega
      · simp only [dictInsert, if_neg hk, jsizePairs]
        omega

theorem lowSurrogate_length {cs r : List Char} {m : Nat}
    (h : lowSurrogate cs = some (m, r)) : r.length + 6 = cs.length := by
  unfold lowSurrogate at h
  split at h
  case h_2 => exact absurd h (by simp)
  case h_1 =>
    split at h
    · split at h
      case h_2 => exact absurd h (by simp)
      case h_1 =>
        split at h
        · simp_all
        · exact absurd h (by simp)
    · exact absurd h (by simp)

theorem parseStringBody_size :
    ∀ (f : Nat) (acc cs : List Char) (s : String) (rest : List Char),
      parseStringBody f acc cs = some (s, rest) →
      s.length + 1 + rest.length ≤ acc.length + cs.length := by
  intro f
  induction f with
  | zero =>
      intro acc cs s rest h
      simp [parseStringBody] at h
  | succ f ih =>
      intro acc cs s rest h
      match cs with
      | [] => simp [parseStringBody] at h
      | c :: cs' =>
          simp only [parseStringBody] at h
          split at h
          · -- closing quote
            simp only [Option.some_inj, Prod.mk.injEq] at h
            obtain ⟨hs, hr⟩ := h
            subst hs; subst hr
            simp only [String.length, List.length_cons]
            omega
          · split at h
            · -- backslash
              split at h
              case h_1 => exact absurd h (by simp)
              case h_2 e rest1 =>
                split at h
                · -- \u
                  split at h
                  case h_2 => exact absurd h (by simp)
                  case h_1 a b cc d rest2 =>
                    split at h
                    case h_1 => exact absurd h (by simp)
                    case h_2 n =>
                      split at h
                      · split at h
                        case h_1 m rest3 heq =>
                          have h10 := lowSurrogate_length heq
                          have h9 := ih _ _ _ _ h
                          simp at h9 ⊢
                          omega
                        case h_2 =>
                          have h9 := ih _ _ _ _ h
                          simp at h9 ⊢
                          omega
                      · split at h
                        all_goals
                          have h9 := ih _ _ _ _ h
                          simp at h9 ⊢
                          omega
                · -- simple escape
                  split at h
                  case h_1 ch hesc =>
                    have h9 := ih _ _ _ _ h
                    simp at h9 ⊢
                    omega
                  case h_2 => exact absurd h (by simp)
            · -- plain char
              split at h
              · exact absurd h (by simp)
              · have h9 := ih _ _ _ _ h
                simp at h9 ⊢
                omega

theorem dropWhile_length {α : Type} (p : α → Bool) (l : List α) :
    (l.dropWhile p).length ≤ l.length := by
  induction l with
  | nil => simp [List.dropWhile]
  | cons x xs ih =>
      simp only [List.dropWhile]
      split
      · exact le_trans ih (by simp)
      · simp

theorem parseFrac_length (r1 : List Char) :
    (parseFrac r1).2.length ≤ r1.length := by
  unfold parseFrac
  split
  · split
    · dsimp only
      split
      · simp
      · exact le_trans (dropWhile_length _ _)
          (by simp only [List.length_cons]; omega)
    · simp
  · simp

theorem parseExp_length (r2 : List Char) :
    (parseExp r2).2.length ≤ r2.length := by
  unfold parseExp
  split
  case h_1 e t3 =>
    split
    · split
      case h_1 s0 u =>
        dsimp only
        by_cases hsign : s0 = '-' ∨ s0 = '+'
        · simp only [if_pos hsign]
          split
          · simp
          · exact le_trans (dropWhile_length _ _)
              (by simp only [List.length_cons]; omega)
        · simp only [if_neg hsign]
          split
          · simp
          · exact le_trans (dropWhile_length _ _)
              (by simp only [List.length_cons]; omega)
      case h_2 => simp
    · simp
  case h_2 => simp

theorem parseNumber_size (cs : List Char) (v : Json) (rest : List Char)
    (h : parseNumber cs = some (v, rest)) :
    jsize v + rest.length ≤ cs.length := by
  unfold parseNumber at h
  split at h
  case h_1 => exact absurd h (by simp)
  case h_2 c0 t0 =>
    dsimp only at h
    split at h
    case h_1 hcs1 => exact absurd h (by simp)
    case h_2 c t hcs1 =>
      rw [hcs1] at h
      have hlen : (c :: t).length ≤ (c0 :: t0).length := by
        rw [← hcs1]
        split
        · simp
        · simp
      simp only [List.length_cons] at hlen
      split at h
      · exact absurd h (by simp)
      case isFalse hdig =>
        have hdigit : isDigitChar c = true := by simpa using hdig
        have hdw : ((c :: t).dropWhile isDigitChar).length ≤ t.length := by
          rw [List.dropWhile_cons]
          simp only [hdigit, if_true]
          exact dropWhile_length _ _
        have hf0 := parseFrac_length t
        have he0 := parseExp_length (parseFrac t).2
        have hfd := parseFrac_length ((c :: t).dropWhile isDigitChar)
        have hed := parseExp_length (parseFrac ((c :: t).dropWhile isDigitChar)).2
        split at h <;> split at h <;>
          (simp only [Option.some_inj, Prod.mk.injEq] at h
           obtain ⟨hv, hr⟩ := h
           subst hv; subst hr
           simp only [jsize, List.length_cons]
           omega)

theorem parse_size (f : Nat) :
    (∀ cs v rest, parseValue f cs = some (v, rest) →
      jsize v + rest.length ≤ cs.length) ∧
    (∀ cs acc v rest, parseObjMembers f cs acc = some (v, rest) →
      jsize v + rest.length ≤ 1 + jsizePairs acc + cs.length) ∧
    (∀ cs acc v rest, parseArrElems f cs acc = some (v, rest) →
      jsize v + rest.length ≤ 1 + jsizeList acc + cs.length) := by
  induction f with
  | zero =>
      refine ⟨?_, ?_, ?_⟩
      · intro cs v rest h; simp [parseValue] at h
      · intro cs acc v rest h; simp [parseObjMembers] at h
      · intro cs acc v rest h; simp [parseArrElems] at h
  | succ f ih =>
      obtain ⟨ihv, ihm, iha⟩ := ih
      refine ⟨?_, ?_, ?_⟩
      · -- parseValue
        intro cs v rest h
        simp only [parseValue] at h
        split at h
        case h_1 => exact absurd h (by simp)
        case h_2 c rest0 =>
          split at h
          · -- object
            split at h
            case h_1 x r2 hsw =>
              have hswl : r2.length + 1 ≤ rest0.length := by
                have h5 := skipWs_length rest0
                rw [hsw] at h5
                simpa using h5
              split at h
              · simp only [Option.some_inj, Prod.mk.injEq] at h
                obtain ⟨hv, hr⟩ := h
                subst hv; subst hr
                simp only [jsize, jsizePairs, List.length_cons]
                omega
              · have h6 := ihm _ _ _ _ h
                simp only [jsizePairs, List.length_cons] at h6 ⊢
                omega
            case h_2 => exact absurd h (by simp)
          · split at h
            · -- array
              split at h
              case h_1 x r2 hsw =>
                have hswl : r2.length + 1 ≤ rest0.length := by
                  have h5 := skipWs_length rest0
                  rw [hsw] at h5
                  simpa using h5
                split at h
                · simp only [Option.some_inj, Prod.mk.injEq] at h
                  obtain ⟨hv, hr⟩ := h
                  subst hv; subst hr
                  simp only [jsize, jsizeList, List.length_cons]
                  omega
                · have h6 := iha _ _ _ _ h
                  simp only [jsizeList, List.length_cons] at h6 ⊢
                  omega
              case h_2 => exact absurd h (by simp)
            · split at h
              · -- string
                split at h
                case h_1 s r hsb =>
                  simp only [Option.some_inj, Prod.mk.injEq] at h
                  obtain ⟨hv, hr⟩ := h
                  subst hv; subst hr
                  have h6 := parseStringBody_size f [] rest0 s r hsb
                  simp only [jsize, List.length_cons, List.length_nil] at h6 ⊢
                  omega
                case h_2 => exact absurd h (by simp)
              · split at h
                · -- true
                  split at h
                  · simp only [Option.some_inj, Prod.mk.injEq] at h
                    obtain ⟨hv, hr⟩ := h
                    subst hv; subst hr
                    simp only [jsize, List.length_drop, List.length_cons]
                    omega
                  · exact absurd h (by simp)
                · split at h
                  · -- false
                    split at h
                    · simp only [Option.some_inj, Prod.mk.injEq] at h
                      obtain ⟨hv, hr⟩ := h
                      subst hv; subst hr
                      simp only [jsize, List.length_drop, List.length_cons]
                      omega
                    · exact absurd h (by simp)
                  · split at h
                    · -- null
                      split at h
                      · simp only [Option.some_inj, Prod.mk.injEq] at h
                        obtain ⟨hv, hr⟩ := h
                        subst hv; subst hr
                        simp only [jsize, List.length_drop, List.length_cons]
                        omega
                      · exact absurd h (by simp)
                    · -- number
                      exact parseNumber_size _ _ _ h
      · -- parseObjMembers
        intro cs acc v rest h
        simp only [parseObjMembers] at h
        split at h
        case h_1 => exact absurd h (by simp)
        case h_2 c rest0 =>
          split at h
          case isFalse => exact absurd h (by simp)
          case isTrue =>
            split at h
            case h_1 => exact absurd h (by simp)
            case h_2 k r1 hsb =>
              have hsbl := parseStringBody_size f [] rest0 k r1 hsb
              simp only [List.length_nil] at hsbl
              split at h
              case h_2 => exact absurd h (by simp)
              case h_1 c2 r3 hsw1 =>
                have hswl1 : r3.length + 1 ≤ r1.length := by
                  have h5 := skipWs_length r1
                  rw [hsw1] at h5
                  simpa using h5
                split at h
                case isFalse => exact absurd h (by simp)
                case isTrue =>
                  split at h
                  case h_1 => exact absurd h (by simp)
                  case h_2 w r4 hpv =>
                    have hvl := ihv _ _ _ hpv
                    have hswl2 : (skipWs r3).length ≤ r3.length :=
                      skipWs_length r3
                    split at h
                    case h_2 => exact absurd h (by simp)
                    case h_1 c3 r6 hsw2 =>
                      have hswl3 : r6.length + 1 ≤ r4.length := by
                        have h5 := skipWs_length r4
                        rw [hsw2] at h5
                        simpa using h5
                      have hdi := jsizePairs_dictInsert acc k w
                      split at h
                      · -- comma: next member
                        have h6 := ihm _ _ _ _ h
                        have hswl4 : (skipWs r6).length ≤ r6.length :=
                          skipWs_length r6
                        simp only [List.length_cons] at h6 ⊢
                        omega
                      · split at h
                        · -- closing brace
                          simp only [Option.some_inj, Prod.mk.injEq] at h
                          obtain ⟨hv, hr⟩ := h
                          subst hv; subst hr
                          simp only [jsize, List.length_cons]
                          omega
                        · exact absurd h (by simp)
      · -- parseArrElems
        intro cs acc v rest h
        simp only [parseArrElems] at h
        split at h
        case h_1 => exact absurd h (by simp)
        case h_2 w r1 hpv =>
          have hvl := ihv _ _ _ hpv
          split at h
          case h_2 => exact absurd h (by simp)
          case h_1 c2 r3 hsw =>
            have hswl : r3.length + 1 ≤ r1.length := by
              have h5 := skipWs_length r1
              rw [hsw] at h5
              simpa using h5
            split at h
            · -- comma: next element
              have h6 := iha _ _ _ _ h
              have hap : jsizeList (acc ++ [w]) =
                  jsizeList acc + (1 + jsize w) := by
                rw [jsizeList_append]
                simp [jsizeList]
              have hswl2 : (skipWs r3).length ≤ r3.length := skipWs_length r3
              rw [hap] at h6
              omega
            · split at h
              · -- closing bracket
                simp only [Option.some_inj, Prod.mk.injEq] at h
                obtain ⟨hv, hr⟩ := h
                subst hv; subst hr
                have hap : jsizeList (acc ++ [w]) =
                    jsizeList acc + (1 + jsize w) := by
                  rw [jsizeList_append]
                  simp [jsizeList]
                simp only [jsize, hap]
                omega
              · exact absurd h (by simp)

theorem parseValue_size {f : Nat} {cs : List Char} {v : Json}
    {rest : List Char} (h : parseValue f cs = some (v, rest)) :
    jsize v + rest.length ≤ cs.length :=
  (parse_size f).1 cs v rest h

/-! ### Scanner lemmas -/

theorem rawDecode_bounds {cs : List Char} {idx : Nat} {v : Json} {e : Nat}
    (h : rawDecode cs idx = some (v, e)) :
    idx < e ∧ e ≤ cs.length := by
  unfold rawDecode at h
  split at h
  case h_2 => exact absurd h (by simp)
  case h_1 v0 rest heq =>
    simp only [Option.some_inj, Prod.mk.injEq] at h
    obtain ⟨hv, he⟩ := h
    subst hv; subst he
    have h1 := parseValue_size heq
    have h2 := jsize_pos v0
    rw [List.length_drop] at h1
    omega

theorem iterJsonAux_high_idx (g : Nat) (cs : List Char) (idx : Nat)
    (h : cs.length ≤ idx) : iterJsonAux g cs idx = [] := by
  cases g with
  | zero => rfl
  | succ g => simp [iterJsonAux, Nat.not_lt.mpr h]

theorem iterJsonAux_fuel :
    ∀ (f g : Nat) (cs : List Char) (idx : Nat),
      cs.length - idx ≤ f → cs.length - idx ≤ g →
      iterJsonAux f cs idx = iterJsonAux g cs idx := by
  intro f
  induction f with
  | zero =>
      intro g cs idx hf hg
      have hge : cs.length ≤ idx := by omega
      rw [iterJsonAux_high_idx 0 cs idx hge, iterJsonAux_high_idx g cs idx hge]
  | succ f ih =>
      intro g cs idx hf hg
      match g with
      | 0 =>
          have hge : cs.length ≤ idx := by omega
          rw [iterJsonAux_high_idx (f + 1) cs idx hge,
            iterJsonAux_high_idx 0 cs idx hge]
      | g' + 1 =>
          by_cases hidx : idx < cs.length
          · simp only [iterJsonAux, if_pos hidx]
            by_cases hbr : cs.getD idx ' ' = '{' ∨ cs.getD idx ' ' = '['
            · simp only [if_pos hbr]
              cases hrd : rawDecode cs idx with
              | some ve =>
                  obtain ⟨v, e⟩ := ve
                  have hb := rawDecode_bounds hrd
                  dsimp only
                  rw [ih g' cs e (by omega) (by omega)]
              | none =>
                  dsimp only
                  rw [ih g' cs (idx + 1) (by omega) (by omega)]
            · simp only [if_neg hbr]
              rw [ih g' cs (idx + 1) (by omega) (by omega)]
          · simp [iterJsonAux, hidx]

theorem parseObjMembers_shape :
    ∀ (f : Nat) (cs : List Char) (acc : List (String × Json)) (v : Json)
      (rest : List Char), parseObjMembers f cs acc = some (v, rest) →
      ∃ kvs, v = Json.obj kvs := by
  intro f
  induction f with
  | zero => intro cs acc v rest h; simp [parseObjMembers] at h
  | succ f ih =>
      intro cs acc v rest h
      simp only [parseObjMembers] at h
      split at h
      case h_1 => exact absurd h (by simp)
      case h_2 =>
        split at h
        case isFalse => exact absurd h (by simp)
        case isTrue =>
          split at h
          case h_1 => exact absurd h (by simp)
          case h_2 =>
            split at h
            case h_2 => exact absurd h (by simp)
            case h_1 =>
              split at h
              case isFalse => exact absurd h (by simp)
              case isTrue =>
                split at h
                case h_1 => exact absurd h (by simp)
                case h_2 =>
                  split at h
                  case h_2 => exact absurd h (by simp)
                  case h_1 =>
                    split at h
                    · exact ih _ _ _ _ h
                    · split at h
                      · simp only [Option.some_inj, Prod.mk.injEq] at h
                        exact ⟨_, h.1.symm⟩
                      · exact absurd h (by simp)

theorem parseArrElems_shape :
    ∀ (f : Nat) (cs : List Char) (acc : List Json) (v : Json)
      (rest : List Char), parseArrElems f cs acc = some (v, rest) →
      ∃ xs, v = Json.arr xs := by
  intro f
  induction f with
  | zero => intro cs acc v rest h; simp [parseArrElems] at h
  | succ f ih =>
      intro cs acc v rest h
      simp only [parseArrElems] at h
      split at h
      case h_1 => exact absurd h (by simp)
      case h_2 =>
        split at h
        case h_2 => exact absurd h (by simp)
        case h_1 =>
          split at h
          · exact ih _ _ _ _ h
          · split at h
            · simp only [Option.some_inj, Prod.mk.injEq] at h
              exact ⟨_, h.1.symm⟩
            · exact absurd h (by simp)

theorem parseValue_head_shape {f : Nat} {c : Char} {cs : List Char}
    {v : Json} {rest : List Char}
    (h : parseValue f (c :: cs) = some (v, rest))
    (hc : c = '{' ∨ c = '[') :
    (∃ kvs, v = Json.obj kvs) ∨ ∃ xs, v = Json.arr xs := by
  match f with
  | 0 => exact absurd h (by simp [parseValue])
  | f + 1 =>
      simp only [parseValue] at h
      rcases hc with hc | hc
      · subst hc
        left
        split at h
        case isFalse hne => exact absurd rfl hne
        case isTrue =>
          split at h
          case h_2 => exact absurd h (by simp)
          case h_1 =>
            split at h
            · simp only [Option.some_inj, Prod.mk.injEq] at h
              exact ⟨_, h.1.symm⟩
            · exact parseObjMembers_shape _ _ _ _ _ h
      · subst hc
        right
        split at h
        case isTrue habs => exact absurd habs (by decide)
        case isFalse =>
          split at h
          case isFalse hne => exact absurd rfl hne
          case isTrue =>
            split at h
            case h_2 => exact absurd h (by simp)
            case h_1 =>
              split at h
              · simp only [Option.some_inj, Prod.mk.injEq] at h
                exact ⟨_, h.1.symm⟩
              · exact parseArrElems_shape _ _ _ _ _ h

theorem iterJsonAux_shape :
    ∀ (f : Nat) (cs : List Char) (idx : Nat) (v : Json),
      v ∈ iterJsonAux f cs idx →
      (∃ kvs, v = Json.obj kvs) ∨ ∃ xs, v = Json.arr xs := by
  intro f
  induction f with
  | zero => intro cs idx v h; simp [iterJsonAux] at h
  | succ f ih =>
      intro cs idx v h
      simp only [iterJsonAux] at h
      split at h
      case isFalse => simp at h
      case isTrue hidx =>
        split at h
        case isTrue hbr =>
          split at h
          case h_1 v0 e hrd =>
            rcases List.mem_cons.mp h with hv | hv
            · subst hv
              unfold rawDecode at hrd
              split at hrd
              case h_2 => exact absurd hrd (by simp)
              case h_1 w rest heq =>
                simp only [Option.some_inj, Prod.mk.injEq] at hrd
                obtain ⟨hw, _⟩ := hrd
                subst hw
                have hdrop : cs.drop idx = cs.getD idx ' ' :: cs.drop (idx + 1) := by
                  rw [List.getD_eq_getElem cs ' ' hidx]
                  exact List.drop_eq_getElem_cons hidx
                rw [hdrop] at heq
                exact parseValue_head_shape heq hbr
            · exact ih _ _ _ hv
          case h_2 => exact ih _ _ _ h
        case isFalse => exact ih _ _ _ h

/-! ### Content-walker lemmas -/

theorem pyStrip_length (s : String) : (pyStrip s).length ≤ s.length := by
  unfold pyStrip
  simp only [String.length]
  calc (((s.data.dropWhile isPyWs).reverse.dropWhile isPyWs).reverse).length
      = ((s.data.dropWhile isPyWs).reverse.dropWhile isPyWs).length := by
        simp
    _ ≤ (s.data.dropWhile isPyWs).reverse.length := dropWhile_length _ _
    _ = (s.data.dropWhile isPyWs).length := by simp
    _ ≤ s.data.length := dropWhile_length _ _

theorem pyLoads_size {s : String} {v : Json} (h : pyLoads s = some v) :
    jsize v ≤ s.length := by
  unfold pyLoads at h
  split at h
  case h_2 => exact absurd h (by simp)
  case h_1 v0 rest heq =>
    split at h
    · simp only [Option.some_inj] at h
      subst h
      have h1 := parseValue_size heq
      have h2 := skipWs_length s.data
      simp only [String.length]
      omega
    · exact absurd h (by simp)

theorem strCandidate_size {s : String} {v : Json}
    (h : strCandidate s = some v) : jsize v ≤ s.length := by
  unfold strCandidate at h
  dsimp only at h
  split at h
  case h_2 => exact absurd h (by simp)
  case h_1 =>
    split at h
    · exact le_trans (pyLoads_size h) (pyStrip_length s)
    · exact absurd h (by simp)

theorem iterContentList_nil (g : Nat) : iterContentList g [] = [] := by
  cases g <;> rfl

theorem iterContentPairs_nil (g : Nat) : iterContentPairs g [] = [] := by
  cases g <;> rfl

theorem jsizeList_pos {x : Json} {xs : List Json} :
    1 ≤ jsizeList (x :: xs) := by
  simp only [jsizeList]
  omega

theorem iterContent_fuel (f : Nat) :
    (∀ (g : Nat) (j : Json), jsize j ≤ f → jsize j ≤ g →
      iterContentAux f j = iterContentAux g j) ∧
    (∀ (g : Nat) (l : List Json), jsizeList l ≤ f → jsizeList l ≤ g →
      iterContentList f l = iterContentList g l) ∧
    (∀ (g : Nat) (kvs : List (String × Json)), jsizePairs kvs ≤ f →
      jsizePairs kvs ≤ g → iterContentPairs f kvs = iterContentPairs g kvs) := by
  induction f with
  | zero =>
      refine ⟨?_, ?_, ?_⟩
      · intro g j hf hg
        exact absurd hf (by have := jsize_pos j; omega)
      · intro g l hf hg
        cases l with
        | nil => rw [iterContentList_nil, iterContentList_nil]
        | cons x xs =>
            exact absurd hf (by have := @jsizeList_pos x xs; omega)
      · intro g kvs hf hg
        cases kvs with
        | nil => rw [iterContentPairs_nil, iterContentPairs_nil]
        | cons kv rest =>
            obtain ⟨k, v⟩ := kv
            exact absurd hf (by simp [jsizePairs])
  | succ f ih =>
      obtain ⟨ihj, ihl, ihp⟩ := ih
      refine ⟨?_, ?_, ?_⟩
      · intro g j hf hg
        match g with
        | 0 => exact absurd hg (by have := jsize_pos j; omega)
        | g' + 1 =>
            cases j with
            | null => rfl
            | bool b => rfl
            | num n => rfl
            | fnum m e => rfl
            | str s =>
                simp only [iterContentAux]
                split
                case h_1 v hv =>
                    have hsz := strCandidate_size hv
                    have h1 : jsize v ≤ f := by
                      simp only [jsize] at hf
                      omega
                    have h2 : jsize v ≤ g' := by
                      simp only [jsize] at hg
                      omega
                    exact ihj g' v h1 h2
                case h_2 => rfl
            | arr xs =>
                simp only [iterContentAux]
                simp only [jsize] at hf hg
                exact ihl g' xs (by omega) (by omega)
            | obj kvs =>
                simp only [iterContentAux]
                simp only [jsize] at hf hg
                rw [ihp g' kvs (by omega) (by omega)]
      · intro g l hf hg
        match g with
        | 0 =>
            cases l with
            | nil => rw [iterContentList_nil, iterContentList_nil]
            | cons x xs => exact absurd hg (by have := @jsizeList_pos x xs; omega)
        | g' + 1 =>
            cases l with
            | nil => rfl
            | cons x xs =>
                simp only [iterContentList]
                simp only [jsizeList] at hf hg
                have h1 := jsize_pos x
                rw [ihj g' x (by omega) (by omega), ihl g' xs (by omega) (by omega)]
      · intro g kvs hf hg
        match g with
        | 0 =>
            cases kvs with
            | nil => rw [iterContentPairs_nil, iterContentPairs_nil]
            | cons kv rest =>
                obtain ⟨k, v⟩ := kv
                exact absurd hg (by simp [jsizePairs])
        | g' + 1 =>
            cases kvs with
            | nil => rfl
            | cons kv rest =>
                obtain ⟨k, v⟩ := kv
                simp only [iterContentPairs]
                simp only [jsizePairs] at hf hg
                have h1 := jsize_pos v
                rw [ihj g' v (by omega) (by omega), ihp g' rest (by omega) (by omega)]

theorem iterContentAux_fuel {f : Nat} {j : Json} (hf : jsize j ≤ f) :
    iterContentAux f j = iter_content_objects j :=
  (iterContent_fuel f).1 (jsize j) j hf (le_refl _)

theorem iter_content_str (s : String) :
    iter_content_objects (Json.str s) =
      match strCandidate s with
      | some v => iter_content_objects v
      | none => [] := by
  have h0 : iter_content_objects (Json.str s) =
      iterContentAux (s.length + 1) (Json.str s) := by
    unfold iter_content_objects
    simp [jsize]
  rw [h0]
  simp only [iterContentAux]
  split
  case h_1 v hv =>
    exact iterContentAux_fuel (le_trans (strCandidate_size hv) (by omega))
  case h_2 => rfl

/-! ### UTF-8 decoding lemmas -/

theorem utf8Go_ascii :
    ∀ (f : Nat) (bs : List Nat), bs.length < f → (∀ b ∈ bs, b < 128) →
      utf8Go f bs = bs.map Char.ofNat := by
  intro f
  induction f with
  | zero => intro bs h _; omega
  | succ f ih =>
      intro bs hlen hascii
      cases bs with
      | nil => rfl
      | cons b rest =>
          have hb : b < 128 := hascii b (by simp)
          simp only [utf8Go, if_pos (by omega : b < 0x80), List.map_cons]
          rw [ih rest (by simp at hlen; omega)
            (fun x hx => hascii x (by simp [hx]))]

theorem utf8DecodeIgnore_ascii (bs : List Nat) (h : ∀ b ∈ bs, b < 128) :
    utf8DecodeIgnore bs = bs.map Char.ofNat := by
  unfold utf8DecodeIgnore
  exact utf8Go_ascii (bs.length + 1) bs (by omega) h

theorem intercalate_cons_cons {α : Type} (sep x y : List α)
    (r : List (List α)) :
    List.intercalate sep (x :: y :: r) =
      x ++ sep ++ List.intercalate sep (y :: r) := by
  simp [List.intercalate, List.intersperse]

theorem map_intercalate {α β : Type} (f : α → β) (sep : List α) :
    ∀ (l : List (List α)),
      (List.intercalate sep l).map f =
        List.intercalate (sep.map f) (l.map (fun p => p.map f)) := by
  intro l
  induction l with
  | nil => simp [List.intercalate]
  | cons x rest ih =>
      cases rest with
      | nil => simp [List.intercalate, List.intersperse]
      | cons y rest2 =>
          simp only [List.map_cons]
          rw [intercalate_cons_cons, intercalate_cons_cons]
          simp only [List.map_append, List.map_cons] at ih ⊢
          rw [ih]

/-! ### Stream-recovery lemmas -/

theorem concatN_length (n : Nat) (s : List Nat) :
    (concatN n s).length = n * s.length := by
  induction n with
  | zero => simp [concatN]
  | succ n ih => simp [concatN, ih]; ring

theorem inflateStored_mono :
    ∀ (f g : Nat) (rest acc out r : List Nat), f ≤ g →
      inflateStored f rest acc = some (out, r) →
      inflateStored g rest acc = some (out, r) := by
  intro f
  induction f with
  | zero =>
      intro g rest acc out r _ h
      rw [show inflateStored 0 rest acc = none from rfl] at h
      exact absurd h (by simp)
  | succ f ih =>
      intro g rest acc out r hfg h
      match g with
      | 0 => omega
      | g' + 1 =>
          cases rest with
          | nil =>
              rw [show inflateStored (f + 1) [] acc = none from rfl] at h
              exact absurd h (by simp)
          | cons hdr rest1 =>
              simp only [inflateStored] at h ⊢
              split at h
              case isTrue => exact absurd h (by simp)
              case isFalse hbt =>
                rw [if_neg hbt]
                split at h
                case h_2 hne => exact absurd h (by simp)
                case h_1 l1 l2 n1 n2 rest2 =>
                  split at h
                  case isTrue => exact absurd h (by simp)
                  case isFalse hnl =>
                    rw [if_neg hnl]
                    split at h
                    case isTrue => exact absurd h (by simp)
                    case isFalse hlt =>
                      rw [if_neg hlt]
                      split at h
                      case isTrue hbf => rw [if_pos hbf]; exact h
                      case isFalse hbf =>
                        rw [if_neg hbf]
                        exact ih g' _ _ _ _ (by omega) h

theorem inflateStored_append :
    ∀ (f : Nat) (rest acc out r t : List Nat),
      inflateStored f rest acc = some (out, r) →
      inflateStored f (rest ++ t) acc = some (out, r ++ t) := by
  intro f
  induction f with
  | zero =>
      intro rest acc out r t h
      rw [show inflateStored 0 rest acc = none from rfl] at h
      exact absurd h (by simp)
  | succ f ih =>
      intro rest acc out r t h
      cases rest with
      | nil =>
          rw [show inflateStored (f + 1) [] acc = none from rfl] at h
          exact absurd h (by simp)
      | cons hdr rest1 =>
          rw [List.cons_append]
          simp only [inflateStored] at h ⊢
          split at h
          case isTrue => exact absurd h (by simp)
          case isFalse hbt =>
            rw [if_neg hbt]
            split at h
            case h_2 hne => exact absurd h (by simp)
            case h_1 l1 l2 n1 n2 rest2 =>
              simp only [List.cons_append]
              split at h
              case isTrue => exact absurd h (by simp)
              case isFalse hnl =>
                rw [if_neg hnl]
                split at h
                case isTrue => exact absurd h (by simp)
                case isFalse hlt =>
                  have hle : l1 + 256 * l2 ≤ rest2.length := by omega
                  rw [if_neg (by simp only [List.length_append]; omega)]
                  rw [List.take_append_of_le_length hle,
                    List.drop_append_of_le_length hle]
                  split at h
                  case isTrue hbf =>
                    rw [if_pos hbf]
                    simp only [Option.some_inj, Prod.mk.injEq] at h
                    obtain ⟨ho, hr⟩ := h
                    subst ho; subst hr
                    simp
                  case isFalse hbf =>
                    rw [if_neg hbf]
                    exact ih _ _ _ _ t h

theorem gunzip_append {s out : List Nat} (t : List Nat)
    (h : gunzip s = some out) : gunzip (s ++ t) = some out := by
  unfold gunzip at h
  split at h
  case h_2 => exact absurd h (by simp)
  case h_1 b1 b2 cm flg m1 m2 m3 m4 xf os rest =>
    simp only [List.cons_append]
    unfold gunzip
    split at h
    · exact absurd h (by simp)
    case isFalse hmg =>
      split at h
      · exact absurd h (by simp)
      case isFalse hcm =>
        split at h
        · exact absurd h (by simp)
        case isFalse hflg =>
          split at h
          case h_2 => exact absurd h (by simp)
          case h_1 out0 rest2 hinf =>
            split at h
            case h_2 => exact absurd h (by simp)
            case h_1 c1 c2 c3 c4 i1 i2 i3 i4 htk =>
              have hlen8 : 8 ≤ rest2.length := by
                have h7 := congrArg List.length htk
                simp only [List.length_take] at h7
                simp at h7
                omega
              split at h
              case isFalse => exact absurd h (by simp)
              case isTrue hck =>
                simp only [Option.some_inj] at h
                subst h
                have hinf2 := inflateStored_mono (rest.length + 1)
                  ((rest ++ t).length + 1) rest [] out0 rest2
                  (by simp only [List.length_append]; omega) hinf
                have hinf3 := inflateStored_append ((rest ++ t).length + 1)
                  rest [] out0 rest2 t hinf2
                dsimp only
                rw [if_neg hmg, if_neg hcm, if_neg hflg, hinf3]
                dsimp only
                rw [List.take_append_of_le_length hlen8, htk]
                dsimp only
                rw [if_pos hck]

theorem gunzip_magic {s out : List Nat} (h : gunzip s = some out) :
    s.take 2 = [0x1F, 0x8B] ∧ 2 ≤ s.length := by
  unfold gunzip at h
  split at h
  case h_2 => exact absurd h (by simp)
  case h_1 b1 b2 cm flg m1 m2 m3 m4 xf os rest =>
    split at h
    case isTrue => exact absurd h (by simp)
    case isFalse hmg =>
      push_neg at hmg
      simp [List.take, hmg.1, hmg.2]

theorem drop_concatN (s : List Nat) :
    ∀ (k n : Nat), k ≤ n →
      (concatN n s).drop (k * s.length) = concatN (n - k) s := by
  intro k
  induction k with
  | zero => intro n _; simp
  | succ k ih =>
      intro n hkn
      match n with
      | n' + 1 =>
          have hrw : (k + 1) * s.length = s.length + k * s.length := by ring
          rw [show concatN (n' + 1) s = s ++ concatN n' s from rfl, hrw,
            List.drop_append, ih n' (by omega)]
          congr 1
          omega

theorem payloadStep_absorb {D : List Nat → Option (List Nat)}
    {data out : List Nat} {idx : Nat}
    (h : D (data.drop idx) = some out ∨ D (data.drop idx) = none) :
    payloadStep D data ([out], [out]) idx = ([out], [out]) := by
  unfold payloadStep
  rcases h with h | h <;> rw [h]
  simp

theorem foldl_payloadStep_absorb {D : List Nat → Option (List Nat)}
    {data out : List Nat} :
    ∀ (L : List Nat),
      (∀ i ∈ L, D (data.drop i) = some out ∨ D (data.drop i) = none) →
      L.foldl (payloadStep D data) ([out], [out]) = ([out], [out]) := by
  intro L
  induction L with
  | nil => intro _; rfl
  | cons i L' ih =>
      intro hL
      rw [List.foldl_cons, payloadStep_absorb (hL i (by simp))]
      exact ih (fun j hj => hL j (by simp [hj]))

theorem stream_recovery_repeat (S out : List Nat) (N : Nat)
    (hg : gunzip S = some out) (hne : out ≠ []) (hN : 1 ≤ N)
    (hspur : ∀ i ∈ iter_gzip_offsets (concatN N S), ¬ S.length ∣ i →
      gunzip ((concatN N S).drop i) = none) :
    decompress_payloads (concatN N S) = [out] := by
  have hmag := gunzip_magic hg
  have hlenS : 2 ≤ S.length := hmag.2
  have hblen : (concatN N S).length = N * S.length := concatN_length N S
  have hblobg : gunzip (concatN N S) = some out := by
    match N, hN with
    | n + 1, _ => exact gunzip_append _ hg
  have hkey : ∀ i ∈ iter_gzip_offsets (concatN N S),
      gunzip ((concatN N S).drop i) = some out ∨
      gunzip ((concatN N S).drop i) = none := by
    intro i hi
    by_cases hdvd : S.length ∣ i
    · left
      obtain ⟨k, hk⟩ := hdvd
      have hilt : i < (concatN N S).length := by
        unfold iter_gzip_offsets at hi
        simp only [List.mem_filter, List.mem_range] at hi
        exact hi.1
      have hkN : k < N := by
        rw [hblen, hk] at hilt
        by_contra hcon
        push_neg at hcon
        have : N * S.length ≤ S.length * k :=
          le_trans (Nat.mul_le_mul_right _ hcon) (le_of_eq (Nat.mul_comm k _))
        omega
      have hdrop : (concatN N S).drop i = concatN (N - k) S := by
        rw [hk, Nat.mul_comm]
        exact drop_concatN S k N (le_of_lt hkN)
      rw [hdrop]
      have hno : N - k = (N - k - 1) + 1 := by omega
      rw [hno, show concatN ((N - k - 1) + 1) S = S ++ concatN (N - k - 1) S
        from rfl]
      exact gunzip_append _ hg
    · right
      exact hspur i hi hdvd
  have hhead : ∃ L', iter_gzip_offsets (concatN N S) = 0 :: L' := by
    unfold iter_gzip_offsets
    have hpos : 0 < (concatN N S).length := by
      rw [hblen]
      calc 0 < 1 * 2 := by omega
        _ ≤ N * S.length := Nat.mul_le_mul hN hlenS
    obtain ⟨m, hm⟩ : ∃ m, (concatN N S).length = m + 1 :=
      ⟨(concatN N S).length - 1, by omega⟩
    rw [hm, List.range_succ_eq_map, List.filter_cons]
    have hp0 : ((concatN N S).drop 0).take 2 == [0x1F, 0x8B] := by
      rw [List.drop_zero]
      have htk : (concatN N S).take 2 = [0x1F, 0x8B] := by
        match N, hN with
        | n + 1, _ =>
            rw [show concatN (n + 1) S = S ++ concatN n S from rfl,
              List.take_append_of_le_length hlenS]
            exact hmag.1
      simp [htk]
    rw [if_pos hp0]
    exact ⟨_, rfl⟩
  obtain ⟨L', hL⟩ := hhead
  have hstep0 : payloadStep gunzip (concatN N S) ([], []) 0 = ([out], [out]) := by
    unfold payloadStep
    rw [List.drop_zero, hblobg]
    have : out.isEmpty = false := by
      cases out
      · exact absurd rfl hne
      · rfl
    simp [this]
  unfold decompress_payloads decompressPayloadsWith
  rw [hL, List.foldl_cons, hstep0,
    foldl_payloadStep_absorb L'
      (fun i hi => hkey i (by rw [hL]; exact List.mem_cons_of_mem _ hi))]

/-! ### Aggregation lemmas -/

theorem uniqueStep_keys_nodup (m : List (String × String)) (link : LinkRecord)
    (h : (m.map Prod.fst).Nodup) : ((uniqueStep m link).map Prod.fst).Nodup := by
  unfold uniqueStep
  split
  · exact h
  · split
    · exact keys_nodup_dictInsert _ _ _ h
    · split
      · exact keys_nodup_dictInsert _ _ _ h
      · exact h

theorem unique_by_url_keys_nodup_aux :
    ∀ (links : List LinkRecord) (m : List (String × String)),
      (m.map Prod.fst).Nodup →
      ((links.foldl uniqueStep m).map Prod.fst).Nodup := by
  intro links
  induction links with
  | nil => intro m h; exact h
  | cons l rest ih =>
      intro m h
      rw [List.foldl_cons]
      exact ih _ (uniqueStep_keys_nodup m l h)

theorem unique_by_url_keys_nodup (links : List LinkRecord) :
    ((unique_by_url links).map Prod.fst).Nodup :=
  unique_by_url_keys_nodup_aux links [] (by simp)

theorem favStep_keys_nodup (c : List (String × (String × String)))
    (kv : String × String) (h : (c.map Prod.fst).Nodup) :
    ((favStep c kv).map Prod.fst).Nodup :=
  keys_nodup_dictInsert _ _ _ h

theorem tabStep_keys_nodup (c : List (String × (String × String)))
    (kv : String × String) (h : (c.map Prod.fst).Nodup) :
    ((tabStep c kv).map Prod.fst).Nodup := by
  unfold tabStep
  split
  · exact h
  · exact keys_nodup_dictInsert _ _ _ h

theorem combineUrls_keys_nodup (favU tabU : List (String × String)) :
    ((combineUrls favU tabU).map Prod.fst).Nodup := by
  unfold combineUrls
  have h1 : ∀ (l : List (String × String)) (c : List (String × (String × String))),
      (c.map Prod.fst).Nodup → ((l.foldl favStep c).map Prod.fst).Nodup := by
    intro l
    induction l with
    | nil => intro c h; exact h
    | cons kv rest ih =>
        intro c h
        rw [List.foldl_cons]
        exact ih _ (favStep_keys_nodup c kv h)
  have h2 : ∀ (l : List (String × String)) (c : List (String × (String × String))),
      (c.map Prod.fst).Nodup → ((l.foldl tabStep c).map Prod.fst).Nodup := by
    intro l
    induction l with
    | nil => intro c h; exact h
    | cons kv rest ih =>
        intro c h
        rw [List.foldl_cons]
        exact ih _ (tabStep_keys_nodup c kv h)
  exact h2 tabU _ (h1 favU [] (by simp))

theorem fileRecords_keys_nodup (favorites tabs : List LinkRecord) :
    ((fileRecords favorites tabs).map Prod.fst).Nodup :=
  combineUrls_keys_nodup _ _

theorem foldl_favStep_keep :
    ∀ (l : List (String × String)) (c : List (String × (String × String)))
      (url : String) (x : String × String),
      url ∉ l.map Prod.fst → pyLookup c url = some x →
      pyLookup (l.foldl favStep c) url = some x := by
  intro l
  induction l with
  | nil => intro c url x _ h; exact h
  | cons kv rest ih =>
      intro c url x hmem h
      rw [List.foldl_cons]
      refine ih _ url x (by simp at hmem; simp [hmem.2]) ?_
      unfold favStep
      rw [pyLookup_dictInsert_other]
      · exact h
      · simp at hmem
        exact hmem.1

theorem foldl_favStep_lookup :
    ∀ (l : List (String × String)) (c : List (String × (String × String)))
      (url t : String),
      (l.map Prod.fst).Nodup →
      (∀ kv ∈ l, pyLookup c kv.1 = (none : Option (String × String))) →
      pyLookup l url = some t →
      pyLookup (l.foldl favStep c) url = some ("favorite", t) := by
  intro l
  induction l with
  | nil => intro c url t _ _ h; simp [pyLookup] at h
  | cons kv rest ih =>
      intro c url t hnd hfresh h
      obtain ⟨k0, t0⟩ := kv
      rw [List.foldl_cons]
      have hnd' : k0 ∉ rest.map Prod.fst ∧ (rest.map Prod.fst).Nodup := by
        rw [List.map_cons, List.nodup_cons] at hnd
        exact hnd
      have hfresh0 : pyLookup c k0 = none := hfresh (k0, t0) (by simp)
      have hinsert : favStep c (k0, t0) = c ++ [(k0, ("favorite", t0))] := by
        unfold favStep
        exact dictInsert_of_lookup_none _ _ _ hfresh0
      by_cases hk : k0 = url
      · subst hk
        simp [pyLookup] at h
        subst h
        refine foldl_favStep_keep rest _ k0 _ hnd'.1 ?_
        rw [hinsert, pyLookup_append, hfresh0]
        simp [pyLookup]
      · simp only [pyLookup, if_neg hk] at h
        refine ih _ url t hnd'.2 ?_ h
        intro kv' hkv'
        rw [hinsert, pyLookup_append, hfresh kv' (List.mem_cons_of_mem _ hkv')]
        have hmm : kv'.1 ∈ rest.map Prod.fst := List.mem_map_of_mem _ hkv'
        have hne : ¬ (k0 = kv'.1) := fun hcon => hnd'.1 (hcon ▸ hmm)
        simp [pyLookup, hne]

theorem foldl_tabStep_keep :
    ∀ (l : List (String × String)) (c : List (String × (String × String)))
      (url : String) (x : String × String),
      pyLookup c url = some x →
      pyLookup (l.foldl tabStep c) url = some x := by
  intro l
  induction l with
  | nil => intro c url x h; exact h
  | cons kv rest ih =>
      intro c url x h
      rw [List.foldl_cons]
      refine ih _ url x ?_
      unfold tabStep
      split
      · exact h
      case isFalse hnone =>
        by_cases hk : url = kv.1
        · subst hk
          rw [h] at hnone
          simp at hnone
        · rw [pyLookup_dictInsert_other _ _ _ _ hk]
          exact h

theorem combineUrls_favorite (favU tabU : List (String × String))
    (hnd : (favU.map Prod.fst).Nodup) (url t : String)
    (h : pyLookup favU url = some t) :
    pyLookup (combineUrls favU tabU) url = some ("favorite", t) := by
  unfold combineUrls
  refine foldl_tabStep_keep tabU _ url _ ?_
  exact foldl_favStep_lookup favU [] url t hnd (by simp [pyLookup]) h

theorem fileRecords_favorite (favorites tabs : List LinkRecord)
    (url t : String) (h : pyLookup (unique_by_url favorites) url = some t) :
    pyLookup (fileRecords favorites tabs) url = some ("favorite", t) :=
  combineUrls_favorite _ _ (unique_by_url_keys_nodup favorites) url t h

theorem intercalate_mem {α : Type} (sep : List α) :
    ∀ (l : List (List α)) (b : α), b ∈ List.intercalate sep l →
      b ∈ sep ∨ ∃ p ∈ l, b ∈ p := by
  intro l
  induction l with
  | nil => intro b hb; simp [List.intercalate] at hb
  | cons x rest ih =>
      intro b hb
      cases rest with
      | nil =>
          simp [List.intercalate, List.intersperse] at hb
          exact Or.inr ⟨x, by simp, hb⟩
      | cons y rest2 =>
          rw [intercalate_cons_cons] at hb
          simp only [List.mem_append] at hb
          rcases hb with (hb | hb) | hb
          · exact Or.inr ⟨x, by simp, hb⟩
          · exact Or.inl hb
          · rcases ih b hb with hs | ⟨p, hp, hbp⟩
            · exact Or.inl hs
            · exact Or.inr ⟨p, by simp [hp], hbp⟩

/-! ### Claim theorems -/

/-- C1: the spec says both extractors return a (possibly empty) list and
never raise when a path segment is missing or not a mapping.  The code
contradicts this: on a content node whose `subdirectories` value is
present but not a mapping (here a list), the chained `.get` calls raise
`AttributeError` (modelled as `Except.error`), while a merely missing
path indeed yields the empty list.  This evaluates the code at the
failing input. -/
theorem claim_C1_attribute_error :
    extract_tabs_from_content [("subdirectories", Json.arr [])] =
      .error () ∧
    extract_favorites_from_content [("subdirectories", Json.arr [])] =
      .error () ∧
    extract_tabs_from_content [("x", Json.num 1)] = .ok [] ∧
    extract_favorites_from_content [] = .ok [] :=
  ⟨rfl, rfl, rfl, rfl⟩

/-- C2 counterexample: the claim says every invalid byte sequence
contributes a replacement character.  The code decodes with
`errors="ignore"`: the invalid byte `0xFF` contributes nothing, not
U+FFFD. -/
theorem claim_C2_counterexample :
    decodePayloads [[0xFF]] = "" ∧
    decodePayloads [[0xFF]] ≠ String.mk [Char.ofNat 0xFFFD] :=
  ⟨rfl, by decide⟩

/-- C2 as amended: the sanitization step concatenates all payloads in
order separated by a newline and decodes as UTF-8 with invalid byte
sequences dropped (ignored) rather than causing a failure — shown for
ASCII payloads, plus a concrete case where the invalid byte `0xFF` is
dropped. -/
theorem claim_C2_amended (ps : List (List Nat))
    (h : ∀ p ∈ ps, ∀ b ∈ p, b < 128) :
    decodePayloads ps =
      String.mk (List.intercalate [Char.ofNat 10]
        (ps.map (fun p => p.map Char.ofNat))) ∧
    decodePayloads [[97, 255, 98]] = "ab" := by
  constructor
  · unfold decodePayloads
    have hall : ∀ b ∈ List.intercalate [10] ps, b < 128 := by
      intro b hb
      rcases intercalate_mem [10] ps b hb with hsep | ⟨p, hp, hbp⟩
      · simp at hsep
        omega
      · exact h p hp b hbp
    rw [utf8DecodeIgnore_ascii _ hall, map_intercalate]
    rfl
  · rfl

theorem claim_C2_amended_witness :
    (∀ p ∈ [[104, 105], [121, 111]], ∀ b ∈ p, b < 128) ∧
    decodePayloads [[104, 105], [121, 111]] =
      String.mk (List.intercalate [Char.ofNat 10]
        ([[104, 105], [121, 111]].map (fun p => p.map Char.ofNat))) :=
  ⟨by decide, (claim_C2_amended [[104, 105], [121, 111]] (by decide)).1⟩

/-- C3 counterexample: the claim says a blob consisting of a valid gzip
stream repeated `N` times yields exactly one payload.  Take the valid
stream `S = mkGzipStored (mkGzipStored [65])`, whose stored payload is
itself a complete gzip stream, and `N = 1`: the spurious magic match
inside `S` also decompresses cleanly, so two payloads are recovered. -/
theorem claim_C3_counterexample :
    gunzip (mkGzipStored (mkGzipStored [65])) = some (mkGzipStored [65]) ∧
    (decompress_payloads (concatN 1 (mkGzipStored (mkGzipStored [65])))).length
      = 2 :=
  ⟨rfl, rfl⟩

/-- C3 as amended: a blob of `N ≥ 1` copies of a valid gzip stream with
non-empty decompressed output yields exactly one recovered payload,
provided decompression fails at every magic offset that is not a copy
start (spurious matches inside the stream). -/
theorem claim_C3_amended (S out : List Nat) (N : Nat)
    (hg : gunzip S = some out) (hne : out ≠ []) (hN : 1 ≤ N)
    (hspur : ∀ i ∈ iter_gzip_offsets (concatN N S), ¬ S.length ∣ i →
      gunzip ((concatN N S).drop i) = none) :
    decompress_payloads (concatN N S) = [out] :=
  stream_recovery_repeat S out N hg hne hN hspur

theorem claim_C3_amended_witness :
    gunzip (mkGzipStored [104, 105]) = some [104, 105] ∧
    (∀ i ∈ iter_gzip_offsets (concatN 2 (mkGzipStored [104, 105])),
      ¬ (mkGzipStored [104, 105]).length ∣ i →
      gunzip ((concatN 2 (mkGzipStored [104, 105])).drop i) = none) ∧
    decompress_payloads (concatN 2 (mkGzipStored [104, 105])) = [[104, 105]] :=
  ⟨rfl, by decide,
    claim_C3_amended (mkGzipStored [104, 105]) [104, 105] 2 rfl
      (by decide) (by decide) (by decide)⟩

/-- C4: after per-file aggregation each URL produces at most one record
per file (the combined map's URL keys are distinct); a URL present among
the deduplicated favorites is always classified `favorite` and carries
the favorite's title; and in the concrete collision (favorite title
`Docs`, tab title empty) exactly one record is produced, a favorite with
title `Docs`. -/
theorem claim_C4 :
    (∀ favorites tabs : List LinkRecord,
      ((fileRecords favorites tabs).map Prod.fst).Nodup) ∧
    (∀ (favorites tabs : List LinkRecord) (url t : String),
      pyLookup (unique_by_url favorites) url = some t →
      pyLookup (fileRecords favorites tabs) url = some ("favorite", t)) ∧
    fileRecords [⟨"https://u.test", "Docs"⟩] [⟨"https://u.test", ""⟩] =
      [("https://u.test", ("favorite", "Docs"))] :=
  ⟨fun favorites tabs => fileRecords_keys_nodup favorites tabs,
   fun favorites tabs url t h => fileRecords_favorite favorites tabs url t h,
   rfl⟩

theorem claim_C4_witness :
    pyLookup (unique_by_url [⟨"https://u.test", "Docs"⟩]) "https://u.test" =
      some "Docs" ∧
    pyLookup (fileRecords [⟨"https://u.test", "Docs"⟩]
        [⟨"https://u.test", ""⟩]) "https://u.test" =
      some ("favorite", "Docs") :=
  ⟨rfl, claim_C4.2.1 [⟨"https://u.test", "Docs"⟩] [⟨"https://u.test", ""⟩]
    "https://u.test" "Docs" rfl⟩

/-- C5: in the URL-to-title map building step, a record for an
already-present URL overwrites the stored title exactly when the stored
title is empty and the new title is not; otherwise the earlier title is
kept.  Concretely, `["" , "T", "S"]` titles for one URL leave title `T`
(first non-empty wins, not last). -/
theorem claim_C5 :
    (∀ (m : List (String × String)) (link : LinkRecord) (t : String),
      link.url ≠ "" → pyLookup m link.url = some t →
      pyLookup (uniqueStep m link) link.url =
        some (if t = "" ∧ link.title ≠ "" then link.title else t)) ∧
    unique_by_url [⟨"https://u.test", ""⟩, ⟨"https://u.test", "T"⟩,
        ⟨"https://u.test", "S"⟩] =
      [("https://u.test", "T")] := by
  constructor
  · intro m link t h1 h2
    unfold uniqueStep
    rw [if_neg h1, h2]
    dsimp only
    split
    case isTrue hc =>
      exact pyLookup_dictInsert_self m link.url link.title
    case isFalse hc =>
      exact h2
  · rfl

theorem claim_C5_witness :
    (LinkRecord.url ⟨"https://u.test", "T"⟩ ≠ "") ∧
    pyLookup [("https://u.test", "")]
      (LinkRecord.url ⟨"https://u.test", "T"⟩) = some "" ∧
    pyLookup (uniqueStep [("https://u.test", "")] ⟨"https://u.test", "T"⟩)
        (LinkRecord.url ⟨"https://u.test", "T"⟩) =
      some (if ("" : String) = "" ∧ LinkRecord.title ⟨"https://u.test", "T"⟩ ≠ ""
            then LinkRecord.title ⟨"https://u.test", "T"⟩ else "") :=
  ⟨by decide, rfl,
    claim_C5.1 [("https://u.test", "")] ⟨"https://u.test", "T"⟩ ""
      (by decide) rfl⟩

/-- C6: when the navigation-stack lookup at the string form of the
current index finds nothing, the selection falls back to the entry at the
largest all-digit key (skipping only when that too yields no usable
entry); with keys `"0","1","3"` and current index `2` the key `"3"` is
selected, and the whole tab extractor emits that entry's record. -/
theorem claim_C6 :
    (∀ (nav_stack : List (String × Json)) (current_key : String),
      pyLookup nav_stack current_key = none →
      selectNavEntry nav_stack current_key =
        (let numeric_keys : List Int :=
          ((nav_stack.map Prod.fst).filter pyIsDigit).map
            (fun k => (digitsToNat k.data : Int));
         if numeric_keys.isEmpty then Json.null
         else (pyLookup nav_stack (toString (maxI numeric_keys))).getD
           Json.null)) ∧
    (∀ (nav_stack : List (String × Json)) (current_key : String) (e : Json),
      pyLookup nav_stack current_key = none →
      pyLookup nav_stack
        (toString (maxI (((nav_stack.map Prod.fst).filter pyIsDigit).map
          (fun k => (digitsToNat k.data : Int))))) = some e →
      ¬ (((nav_stack.map Prod.fst).filter pyIsDigit).map
          (fun k => (digitsToNat k.data : Int))).isEmpty →
      selectNavEntry nav_stack current_key = e) ∧
    selectNavEntry [("0", Json.str "zero"), ("1", Json.str "one"),
        ("3", Json.str "three")] (pyStr (Json.num 2)) = Json.str "three" ∧
    extract_tabs_from_content
      [("subdirectories", Json.obj [("tabstripmodel", Json.obj
        [("subdirectories", Json.obj [("webcontents", Json.obj
          [("subdirectories", Json.obj [("tab0", Json.obj
            [("storage", Json.obj [("currentNavigationIndex",
                Json.obj [("value", Json.num 2)])]),
             ("subdirectories", Json.obj [("navigationStack", Json.obj
               [("subdirectories", Json.obj
                 [("0", Json.obj [("storage", Json.obj
                     [("url", Json.str "https://zero.test")])]),
                  ("1", Json.obj [("storage", Json.obj
                     [("url", Json.str "https://one.test")])]),
                  ("3", Json.obj [("storage", Json.obj
                     [("url", Json.str "https://three.test"),
                      ("title", Json.str "T3")])])])])])])])])])])])] =
      .ok [⟨"https://three.test", "T3"⟩] := by
  refine ⟨?_, ?_, rfl, rfl⟩
  · intro nav_stack current_key h
    unfold selectNavEntry
    rw [h]
    simp only [Option.getD_none]
    rw [if_pos (by rfl)]
  · intro nav_stack current_key e h hlook hne
    unfold selectNavEntry
    rw [h]
    simp only [Option.getD_none]
    rw [if_pos (by rfl), if_neg hne, hlook]
    rfl

theorem claim_C6_witness :
    pyLookup [("0", Json.str "zero"), ("1", Json.str "one"),
      ("3", Json.str "three")] "2" = none ∧
    selectNavEntry [("0", Json.str "zero"), ("1", Json.str "one"),
        ("3", Json.str "three")] "2" =
      (let numeric_keys : List Int :=
        (([("0", Json.str "zero"), ("1", Json.str "one"),
           ("3", Json.str "three")].map Prod.fst).filter pyIsDigit).map
          (fun k => (digitsToNat k.data : Int));
       if numeric_keys.isEmpty then Json.null
       else (pyLookup [("0", Json.str "zero"), ("1", Json.str "one"),
         ("3", Json.str "three")] (toString (maxI numeric_keys))).getD
         Json.null) :=
  ⟨rfl, claim_C6.1 [("0", Json.str "zero"), ("1", Json.str "one"),
    ("3", Json.str "three")] "2" rfl⟩

/-- C7: on `garbage{"a":1}moregarbage[1,2]` the scanner yields exactly
the object `{"a":1}` then the array `[1,2]`; in general a successful
parse at a bracket yields the value and moves the cursor just past it
(strictly forward), while a failed parse or a non-bracket character
advances the cursor by exactly one. -/
theorem claim_C7 :
    iter_json_objects "garbage\x7b\"a\":1\x7dmoregarbage[1,2]" =
      [Json.obj [("a", Json.num 1)], Json.arr [Json.num 1, Json.num 2]] ∧
    (∀ (f : Nat) (cs : List Char) (idx : Nat) (v : Json) (e : Nat),
      idx < cs.length → (cs.getD idx ' ' = '{' ∨ cs.getD idx ' ' = '[') →
      rawDecode cs idx = some (v, e) →
      iterJsonAux (f + 1) cs idx = v :: iterJsonAux f cs e ∧ idx < e) ∧
    (∀ (f : Nat) (cs : List Char) (idx : Nat),
      idx < cs.length → (cs.getD idx ' ' = '{' ∨ cs.getD idx ' ' = '[') →
      rawDecode cs idx = none →
      iterJsonAux (f + 1) cs idx = iterJsonAux f cs (idx + 1)) ∧
    (∀ (f : Nat) (cs : List Char) (idx : Nat),
      idx < cs.length → ¬(cs.getD idx ' ' = '{' ∨ cs.getD idx ' ' = '[') →
      iterJsonAux (f + 1) cs idx = iterJsonAux f cs (idx + 1)) := by
  refine ⟨rfl, ?_, ?_, ?_⟩
  · intro f cs idx v e hidx hbr hrd
    refine ⟨?_, (rawDecode_bounds hrd).1⟩
    simp only [iterJsonAux, if_pos hidx, if_pos hbr, hrd]
  · intro f cs idx hidx hbr hrd
    simp only [iterJsonAux, if_pos hidx, if_pos hbr, hrd]
  · intro f cs idx hidx hbr
    simp only [iterJsonAux, if_pos hidx, if_neg hbr]

theorem claim_C7_witness :
    ((0 : Nat) < ("{}x".data).length) ∧
    ("{}x".data.getD 0 ' ' = '{' ∨ "{}x".data.getD 0 ' ' = '[') ∧
    rawDecode "{}x".data 0 = some (Json.obj [], 2) ∧
    (iterJsonAux 4 "{}x".data 0 =
      Json.obj [] :: iterJsonAux 3 "{}x".data 2 ∧ (0 : Nat) < 2) :=
  ⟨by decide, by decide, rfl,
    claim_C7.2.1 3 "{}x".data 0 (Json.obj []) 2 (by decide) (by decide) rfl⟩

/-- C8: the walker follows JSON re-encoded inside strings: the concrete
double-encoded mapping yields exactly its outer content node then the
inner one; in general a string whose candidate parses is recursed into,
and a string whose candidate does not parse yields nothing. -/
theorem claim_C8 :
    iter_content_objects (Json.obj [("content", Json.obj
        [("x", Json.str "\x7b\"content\": \x7b\"y\": 1\x7d\x7d")])]) =
      [Json.obj [("x", Json.str "\x7b\"content\": \x7b\"y\": 1\x7d\x7d")],
       Json.obj [("y", Json.num 1)]] ∧
    (∀ (s : String) (v : Json), strCandidate s = some v →
      iter_content_objects (Json.str s) = iter_content_objects v) ∧
    (∀ s : String, strCandidate s = none →
      iter_content_objects (Json.str s) = []) := by
  refine ⟨rfl, ?_, ?_⟩
  · intro s v hv
    rw [iter_content_str, hv]
  · intro s hv
    rw [iter_content_str, hv]

theorem claim_C8_witness :
    strCandidate "\x7b\"content\": \x7b\"y\": 1\x7d\x7d" =
      some (Json.obj [("content", Json.obj [("y", Json.num 1)])]) ∧
    iter_content_objects (Json.str "\x7b\"content\": \x7b\"y\": 1\x7d\x7d") =
      iter_content_objects (Json.obj [("content", Json.obj
        [("y", Json.num 1)])]) :=
  ⟨rfl, claim_C8.2.1 "\x7b\"content\": \x7b\"y\": 1\x7d\x7d"
    (Json.obj [("content", Json.obj [("y", Json.num 1)])]) rfl⟩

/-- C9: the scanner terminates on every finite input: any fuel of at
least the remaining length computes the same (finite) result, because a
successful parse moves the cursor strictly forward and bounded by the
text length, and every other iteration advances by one. -/
theorem claim_C9 :
    (∀ (f g : Nat) (cs : List Char) (idx : Nat),
      cs.length - idx ≤ f → cs.length - idx ≤ g →
      iterJsonAux f cs idx = iterJsonAux g cs idx) ∧
    (∀ (cs : List Char) (idx : Nat) (v : Json) (e : Nat),
      rawDecode cs idx = some (v, e) → idx < e ∧ e ≤ cs.length) :=
  ⟨fun f g cs idx hf hg => iterJsonAux_fuel f g cs idx hf hg,
   fun _ _ _ _ h => rawDecode_bounds h⟩

theorem claim_C9_witness :
    (("ab[]".data).length - 0 ≤ 10) ∧ (("ab[]".data).length - 0 ≤ 4) ∧
    iterJsonAux 10 "ab[]".data 0 = iterJsonAux 4 "ab[]".data 0 :=
  ⟨by decide, by decide, claim_C9.1 10 4 "ab[]".data 0 (by decide) (by decide)⟩

/-- C10: every value the scanner yields is a mapping or a sequence —
a parse is attempted only at `{` or `[`, so top-level scalars are never
yielded. -/
theorem claim_C10 (s : String) (v : Json) (h : v ∈ iter_json_objects s) :
    (∃ kvs, v = Json.obj kvs) ∨ ∃ xs, v = Json.arr xs :=
  iterJsonAux_shape s.data.length s.data 0 v h

theorem claim_C10_witness :
    Json.obj [] ∈ iter_json_objects "{}" ∧
    ((∃ kvs, Json.obj [] = Json.obj kvs) ∨
      ∃ xs, Json.obj [] = Json.arr xs) :=
  ⟨by rw [show iter_json_objects "{}" = [Json.obj []] from rfl]; simp,
   claim_C10 "{}" (Json.obj [])
     (by rw [show iter_json_objects "{}" = [Json.obj []] from rfl]; simp)⟩

end EdgeWs
